import Mathlib

/-
Verification of the graph linearization / bit-packing encoder of
`bpd_helper.py` (repository ZetaDaemon/bpd_helper).

Embedding conventions, documented once here:

* Python ints are `Int`; lengths coming from `len(...)` are `Nat`.
* `struct.pack`/`struct.unpack` are modelled at the byte level: a pack
  produces the little-endian byte list and raises `struct.error`
  (modelled as `none` / an `err` result) when a value is out of the
  field's range, exactly as CPython does.
* Python floats occur only as pass-through values that are rendered with
  `str(...)` (the `delay` and `retrigger_delay` fields); they are
  modelled by their rendered text (a `String` field), since no
  arithmetic is ever performed on them.
* `Behavior` objects are mutable, aliased, and may form cyclic object
  graphs, so they are arena-allocated: `Behavior.__post_init__` appends
  every behavior to the global `_ALL_BEHAVIORS` list, and we use the
  position in that list as the object identity.  A `BehaviorLink` stores
  the arena index of its target.
* Python `==` on `Behavior` (a `@dataclass(unsafe_hash=True)`) compares
  all three dataclass fields; list/tuple comparison uses
  `PyObject_RichCompareBool`, which short-circuits on object identity.
  On cyclic object graphs this comparison can recurse without bound
  until CPython raises `RecursionError`; we model the recursion limit by
  an explicit fuel parameter, fuel exhaustion being the
  `RecursionError`.
* The iteration order of a CPython `set` is determined by the hash
  table layout (string hashes are randomized per process), not by
  insertion order.  The traversal builds `{link.behavior for link in
  ... if ...}` and pushes `reversed(list(...))`; we model the
  unspecified ordering by an explicit oracle `σ` applied to the
  first-encounter-ordered deduplicated list.  CPython guarantees only
  that `σ` produces a permutation.
-/

namespace BpdHelper

/-! ## Byte-level struct codec (`bpd_helper.py` lines 276-285) -/

/-- Value of a little-endian byte list, as `struct.unpack` reads it. -/
def leBytes : List Nat → Nat
  | [] => 0
  | b :: bs => b % 256 + 256 * leBytes bs

/-- Reinterpret the low 32 bits of a nonnegative integer as a
twos-complement signed 32-bit value, as `struct.unpack("<i", ...)` does. -/
def toInt32 (n : Int) : Int :=
  let m := n % 4294967296
  if m < 2147483648 then m else m - 4294967296

/-- `struct.unpack("<i", bytes)[0]` on a 4-byte little-endian buffer. -/
def structUnpackI (bs : List Nat) : Int :=
  toInt32 (leBytes bs)

/-- `struct.pack` of one `"<H"` (unsigned 16-bit) field: the two
little-endian bytes, or `struct.error` (`none`) out of range. -/
def structPackH (v : Int) : Option (List Nat) :=
  if 0 ≤ v ∧ v < 65536 then some [v.toNat % 256, v.toNat / 256] else none

/-- `struct.pack` of one `"b"` (signed 8-bit) field: the twos-complement
byte, or `struct.error` (`none`) out of range. -/
def structPackb (v : Int) : Option (List Nat) :=
  if -128 ≤ v ∧ v ≤ 127 then some [(v % 256).toNat] else none

/-- `get_arrayindexandlength` (`bpd_helper.py` lines 276-280):
`struct.unpack("<i", struct.pack("<HH", length, idx))[0]`, with the
`length == 0` early return.  `idx` is a Python int (so it may be
negative, in which case packing raises), `length` comes from `len`. -/
def get_arrayindexandlength (idx : Int) (length : Nat) : Option Int :=
  if length = 0 then some 0
  else
    match structPackH (length : Int), structPackH idx with
    | some b1, some b2 => some (structUnpackI (b1 ++ b2))
    | _, _ => none

/-- `get_linkidandlinkedbehavior` (`bpd_helper.py` lines 283-285):
`struct.unpack("<i", struct.pack("<Hxb", behavior_idx, link_id))[0]`;
the `x` is a zero pad byte. -/
def get_linkidandlinkedbehavior (link_id : Int) (behavior_idx : Int) : Option Int :=
  match structPackH behavior_idx, structPackb link_id with
  | some b1, some b3 => some (structUnpackI (b1 ++ [0] ++ b3))
  | _, _ => none

/-! ## Spec-side packing descriptions (for the refinement claims C5, C6)

These two definitions follow the words of the specification (§4.1), not
the source: the claims compare them with the struct-based functions
above. -/

/-- Modelled from the spec §4.1: `pack_offset_length` returns 0 when
`length == 0`, otherwise the signed 32-bit reinterpretation of the value
with `length` in the low-order 16 bits and `offset` in the high-order
16 bits. -/
def pack_offset_length_spec (offset length : Nat) : Int :=
  if length = 0 then 0 else toInt32 ((length : Int) + 65536 * (offset : Int))

/-- Modelled from the spec §4.1: `pack_link_id` packs `behavior_index`
into the low 16 bits, a zero third byte, and `link_id` as a signed byte
into the top byte of a signed 32-bit value. -/
def pack_link_id_spec (link_id : Int) (behavior_index : Nat) : Int :=
  toInt32 ((behavior_index : Int) + 16777216 * (link_id % 256))

/-- Inverse of `get_linkidandlinkedbehavior`, recovering
`(link_id, behavior_index)` from the packed signed 32-bit value. -/
def unpack_linkid (v : Int) : Int × Int :=
  let u := v % 4294967296
  (if u / 16777216 < 128 then u / 16777216 else u / 16777216 - 256, u % 65536)

/-- Shared evaluation lemma: in the 16-bit domains,
`get_arrayindexandlength` packs to `length + 65536 * idx` reinterpreted
as a signed 32-bit value. -/
theorem gai_some (idx : Int) (len : Nat) (h1 : 0 ≤ idx) (h2 : idx < 65536)
    (h3 : 0 < len) (h4 : len < 65536) :
    get_arrayindexandlength idx len = some (toInt32 ((len : Int) + 65536 * idx)) := by
  have hlz : len ≠ 0 := Nat.pos_iff_ne_zero.mp h3
  simp only [get_arrayindexandlength, if_neg hlz]
  have hH1 : structPackH (len : Int) = some [len % 256, len / 256] := by
    simp only [structPackH]
    rw [if_pos ⟨Int.ofNat_nonneg len, by exact_mod_cast h4⟩]
    simp
  have hH2 : structPackH idx = some [idx.toNat % 256, idx.toNat / 256] := by
    simp only [structPackH]
    rw [if_pos ⟨h1, h2⟩]
  rw [hH1, hH2]
  simp only [structUnpackI, List.cons_append, List.nil_append]
  have harg : ((leBytes [len % 256, len / 256, idx.toNat % 256, idx.toNat / 256] : Nat) : Int)
      = (len : Int) + 65536 * idx := by
    have hn : leBytes [len % 256, len / 256, idx.toNat % 256, idx.toNat / 256]
        = len + 65536 * idx.toNat := by
      simp only [leBytes]
      omega
    rw [hn]
    omega
  rw [harg]

/-- Shared evaluation lemma: `length == 0` short-circuits to 0. -/
theorem gai_zero (idx : Int) : get_arrayindexandlength idx 0 = some 0 := by
  simp [get_arrayindexandlength]

/-- C5: `get_arrayindexandlength(offset, length)` returns 0 whenever
`length == 0`, for every offset; and for every `length > 0` (within the
16-bit field domains) it returns the twos-complement signed 32-bit
reinterpretation of the little-endian packing with `length` in the
low-order 16 bits and `offset` in the high-order 16 bits. -/
theorem C5_pack_offset_length :
    (∀ idx : Int, get_arrayindexandlength idx 0 = some 0) ∧
    (∀ o l : Nat, 0 < l → l < 65536 → o < 65536 →
      get_arrayindexandlength (o : Int) l = some (pack_offset_length_spec o l)) := by
  constructor
  · exact gai_zero
  · intro o l hl hl16 ho16
    have hlz : l ≠ 0 := Nat.pos_iff_ne_zero.mp hl
    rw [gai_some (o : Int) l (Int.ofNat_nonneg o) (by exact_mod_cast ho16) hl hl16]
    simp only [pack_offset_length_spec, if_neg hlz]

/-- Witness for C5 at concrete inputs. -/
theorem C5_pack_offset_length_witness :
    (0 < 7 ∧ 7 < 65536 ∧ 3 < 65536) ∧
    get_arrayindexandlength (3 : Int) 7 = some (pack_offset_length_spec 3 7) := by
  refine ⟨by omega, ?_⟩
  exact C5_pack_offset_length.2 3 7 (by omega) (by omega) (by omega)

/-- C6: for every `behavior_index` in `[0, 65535]` and `link_id` in
`[-128, 127]`, `get_linkidandlinkedbehavior` packs `behavior_index` into
the low 16 bits, a zero third byte, and `link_id` as a signed byte into
the top byte of a signed 32-bit integer, and the packing is exactly
invertible on that domain (distinct pairs give distinct values, and both
components can be recovered). -/
theorem C6_pack_link_id_roundtrip :
    ∀ lid bidx : Int, -128 ≤ lid → lid ≤ 127 → 0 ≤ bidx → bidx < 65536 →
      ∃ v, get_linkidandlinkedbehavior lid bidx = some v ∧
        v = pack_link_id_spec lid bidx.toNat ∧
        unpack_linkid v = (lid, bidx) ∧
        ∀ lid' bidx', -128 ≤ lid' → lid' ≤ 127 → 0 ≤ bidx' → bidx' < 65536 →
          get_linkidandlinkedbehavior lid' bidx' = some v → lid' = lid ∧ bidx' = bidx := by
  have key : ∀ lid bidx : Int, -128 ≤ lid → lid ≤ 127 → 0 ≤ bidx → bidx < 65536 →
      get_linkidandlinkedbehavior lid bidx
        = some (toInt32 (bidx + 16777216 * (lid % 256))) := by
    intro lid bidx h1 h2 h3 h4
    have hH : structPackH bidx = some [bidx.toNat % 256, bidx.toNat / 256] := by
      simp only [structPackH]
      rw [if_pos ⟨h3, h4⟩]
    have hb : structPackb lid = some [(lid % 256).toNat] := by
      simp only [structPackb]
      rw [if_pos ⟨h1, h2⟩]
    simp only [get_linkidandlinkedbehavior, hH, hb, List.cons_append, List.nil_append,
      structUnpackI]
    have harg : ((leBytes [bidx.toNat % 256, bidx.toNat / 256, 0, (lid % 256).toNat] : Nat) : Int)
        = bidx + 16777216 * (lid % 256) := by
      have hn : leBytes [bidx.toNat % 256, bidx.toNat / 256, 0, (lid % 256).toNat]
          = bidx.toNat + 16777216 * (lid % 256).toNat := by
        simp only [leBytes]
        omega
      rw [hn]
      omega
    rw [harg]
  have unpack_eq : ∀ lid bidx : Int, -128 ≤ lid → lid ≤ 127 → 0 ≤ bidx → bidx < 65536 →
      unpack_linkid (toInt32 (bidx + 16777216 * (lid % 256))) = (lid, bidx) := by
    intro lid bidx h1 h2 h3 h4
    simp only [unpack_linkid, toInt32, Prod.mk.injEq]
    constructor
    · split <;> split <;> omega
    · split <;> omega
  intro lid bidx h1 h2 h3 h4
  refine ⟨toInt32 (bidx + 16777216 * (lid % 256)), key lid bidx h1 h2 h3 h4, ?_, ?_, ?_⟩
  · simp only [pack_link_id_spec]
    congr 1
    omega
  · exact unpack_eq lid bidx h1 h2 h3 h4
  · intro lid' bidx' h1' h2' h3' h4' heq
    rw [key lid' bidx' h1' h2' h3' h4'] at heq
    have hv := Option.some.inj heq
    have e1 := unpack_eq lid' bidx' h1' h2' h3' h4'
    have e2 := unpack_eq lid bidx h1 h2 h3 h4
    rw [hv] at e1
    rw [e2] at e1
    injection e1 with ha hb
    exact ⟨ha.symm, hb.symm⟩

/-- Witness for C6 at concrete inputs. -/
theorem C6_pack_link_id_roundtrip_witness :
    ((-128 : Int) ≤ -1 ∧ (-1 : Int) ≤ 127 ∧ (0 : Int) ≤ 2 ∧ (2 : Int) < 65536) ∧
    ∃ v, get_linkidandlinkedbehavior (-1) 2 = some v ∧
      v = pack_link_id_spec (-1) (Int.toNat 2) ∧
      unpack_linkid v = (-1, 2) ∧
      ∀ lid' bidx', -128 ≤ lid' → lid' ≤ 127 → 0 ≤ bidx' → bidx' < 65536 →
        get_linkidandlinkedbehavior lid' bidx' = some v → lid' = -1 ∧ bidx' = 2 := by
  refine ⟨by omega, ?_⟩
  exact C6_pack_link_id_roundtrip (-1) 2 (by omega) (by omega) (by omega) (by omega)

/-! ## Enumerations (`bpd_helper.py` lines 41-64) -/

/-- `EBehaviorVariableType` (`bpd_helper.py` lines 41-57). -/
inductive EBehaviorVariableType where
  | BVAR_None | BVAR_Bool | BVAR_Int | BVAR_Float | BVAR_Vector | BVAR_Object
  | BVAR_AllPlayers | BVAR_Attribute | BVAR_InstanceData | BVAR_NamedVariable
  | BVAR_NamedKismetVariable | BVAR_DirectionVector | BVAR_AttachmentLocation
  | BVAR_UnaryMath | BVAR_BinaryMath | BVAR_Flag
deriving DecidableEq

/-- Python `Enum.name` for `EBehaviorVariableType`. -/
def EBehaviorVariableType.pyName : EBehaviorVariableType → String
  | .BVAR_None => "BVAR_None"
  | .BVAR_Bool => "BVAR_Bool"
  | .BVAR_Int => "BVAR_Int"
  | .BVAR_Float => "BVAR_Float"
  | .BVAR_Vector => "BVAR_Vector"
  | .BVAR_Object => "BVAR_Object"
  | .BVAR_AllPlayers => "BVAR_AllPlayers"
  | .BVAR_Attribute => "BVAR_Attribute"
  | .BVAR_InstanceData => "BVAR_InstanceData"
  | .BVAR_NamedVariable => "BVAR_NamedVariable"
  | .BVAR_NamedKismetVariable => "BVAR_NamedKismetVariable"
  | .BVAR_DirectionVector => "BVAR_DirectionVector"
  | .BVAR_AttachmentLocation => "BVAR_AttachmentLocation"
  | .BVAR_UnaryMath => "BVAR_UnaryMath"
  | .BVAR_BinaryMath => "BVAR_BinaryMath"
  | .BVAR_Flag => "BVAR_Flag"

/-- `EBehaviorVariableLinkType` (`bpd_helper.py` lines 60-64). -/
inductive EBehaviorVariableLinkType where
  | BVARLINK_Unknown | BVARLINK_Context | BVARLINK_Input | BVARLINK_Output
deriving DecidableEq

/-- Python `Enum.name` for `EBehaviorVariableLinkType`. -/
def EBehaviorVariableLinkType.pyName : EBehaviorVariableLinkType → String
  | .BVARLINK_Unknown => "BVARLINK_Unknown"
  | .BVARLINK_Context => "BVARLINK_Context"
  | .BVARLINK_Input => "BVARLINK_Input"
  | .BVARLINK_Output => "BVARLINK_Output"

/-! ## The global variable registry (`bpd_helper.py` lines 67-123, C7) -/

/-- `BpdVariable` (`bpd_helper.py` lines 67-106).  `idx` is a Python int
(`-1` is the "not yet registered" sentinel). -/
structure BpdVariable where
  var_type : EBehaviorVariableType := .BVAR_None
  name : String := ""
  idx : Int := -1
  needs_command : Bool := false
deriving DecidableEq

/-- The placeholder list comprehension
`[BpdVariable() for _ in range(k)]` evaluated against registry state `s`.
Each `BpdVariable()` runs `__post_init__` with `idx == -1`, so it takes
`idx = len(_ALL_VARIABLES)` and appends ITSELF to the registry as a side
effect.  Returns (the comprehension's list, the registry afterwards). -/
def mkPlaceholders : Nat → List BpdVariable → List BpdVariable × List BpdVariable
  | 0, s => ([], s)
  | k + 1, s =>
    let p : BpdVariable := { var_type := .BVAR_None, name := "", idx := (s.length : Int),
                             needs_command := false }
    let r := mkPlaceholders k (s ++ [p])
    (p :: r.1, r.2)

/-- `BpdVariable.__post_init__` (`bpd_helper.py` lines 97-106) acting on
the global `_ALL_VARIABLES` registry `s`.  `none` models the
`IndexError` a Python negative-index assignment can raise. -/
def BpdVariable.post_init (s : List BpdVariable) (v : BpdVariable) :
    Option (List BpdVariable) :=
  if v.idx = -1 then
    some (s ++ [{ v with idx := (s.length : Int) }])
  else if (s.length : Int) < v.idx + 1 then
    -- grow: the comprehension self-appends each placeholder, THEN
    -- `extend` appends the comprehension list again
    let r := mkPlaceholders (v.idx + 1 - s.length).toNat s
    some ((r.2 ++ r.1).set v.idx.toNat v)
  else if 0 ≤ v.idx then
    some (s.set v.idx.toNat v)
  else if -(s.length : Int) ≤ v.idx then
    -- Python negative-index assignment `_ALL_VARIABLES[idx] = self`
    some (s.set (s.length - (-v.idx).toNat) v)
  else none

/-- The invariant C7 claims of the registry: every variable is stored at
the array position equal to its `idx` (which makes indices unique and
contiguous from 0). -/
def registryInvariant (s : List BpdVariable) : Prop :=
  ∀ i : Nat, ∀ v ∈ s[i]?, v.idx = (i : Int)

/-- C7 (code bug evaluation): constructing `BpdVariable(idx=0)` with the
global registry empty leaves a TWO element registry
`[the new variable, a placeholder]`, in which the placeholder sits at
position 1 while carrying `idx = 0`: the placeholder comprehension in
`__post_init__` self-appends each placeholder and `extend` then appends
it a second time, so indices are neither unique nor equal to positions,
contradicting the claimed invariant (and the docstring's "it will be
extended ... and given it's correct index"). -/
theorem C7_variable_registry_eval :
    BpdVariable.post_init []
        { var_type := .BVAR_None, name := "", idx := 0, needs_command := false }
      = some [{ var_type := .BVAR_None, name := "", idx := 0, needs_command := false },
              { var_type := .BVAR_None, name := "", idx := 0, needs_command := false }] ∧
    ∀ s, BpdVariable.post_init []
        { var_type := .BVAR_None, name := "", idx := 0, needs_command := false }
      = some s → ¬ registryInvariant s := by
  constructor
  · rfl
  · intro s hs hinv
    have hs' : s = [{ var_type := .BVAR_None, name := "", idx := 0, needs_command := false },
                    { var_type := .BVAR_None, name := "", idx := 0, needs_command := false }] := by
      have : (some [({ var_type := .BVAR_None, name := "", idx := 0, needs_command := false } : BpdVariable),
                    { var_type := .BVAR_None, name := "", idx := 0, needs_command := false }]
              : Option (List BpdVariable)) = some s := by
        rw [← hs]
        rfl
      exact (Option.some.inj this).symm
    subst hs'
    have := hinv 1 { var_type := .BVAR_None, name := "", idx := 0, needs_command := false }
      (by rfl)
    simp at this

/-! ## `VariableLinkData` construction (`bpd_helper.py` lines 126-165, C8) -/

/-- The Python value passed as `variable_indexes`: either an actual list
of ints, or any non-list value (`TypeError` case). -/
inductive PyIndexesArg where
  | pylist : List Int → PyIndexesArg
  | nonList : PyIndexesArg
deriving DecidableEq

/-- `VariableLinkData.__post_init__` (`bpd_helper.py` lines 158-165):
raises `TypeError` when `variable_indexes` is not a list, and raises
`IndexError` on the first index with `var_idx >= len(_ALL_VARIABLES)`.
Returns the accepted index list on success. -/
def VariableLinkData.post_init (nVars : Nat) : PyIndexesArg → Except String (List Int)
  | .nonList => .error "TypeError: variable_indexes is not a list"
  | .pylist l =>
    if l.all (fun v => decide (v < (nVars : Int))) then .ok l
    else .error "IndexError: Variable index out of range of defined variables."

/-- Modelled from the spec's words ("indices that exist in the global
Variable list"): index `i` exists among `nVars` registered variables. -/
def specIndexExists (nVars : Nat) (i : Int) : Prop :=
  0 ≤ i ∧ i < (nVars : Int)

/-- C8 counterexample: with no variables registered, constructing a
`VariableLinkData` with `variable_indexes = [-1]` succeeds even though
index `-1` does not exist in the (empty) global Variable list — the
check `var_idx >= len(_ALL_VARIABLES)` never rejects negative indices,
so construction does NOT succeed "exactly when every index exists". -/
theorem C8_counterexample :
    VariableLinkData.post_init 0 (.pylist [-1]) = .ok [-1] ∧
    ¬ specIndexExists 0 (-1) := by
  constructor
  · rfl
  · intro h
    exact absurd h.1 (by omega)

/-- C8 (amended): construction raises immediately at construction time —
`TypeError` when `variable_indexes` is not a list, `IndexError` when
some index is `≥` the number of registered variables — and succeeds
exactly when `variable_indexes` is a list whose every index is below the
number of registered variables (negative indices are not rejected). -/
theorem C8_amended_construction (nVars : Nat) (a : PyIndexesArg) :
    (∃ l, VariableLinkData.post_init nVars a = .ok l) ↔
      (∃ l, a = .pylist l ∧ ∀ v ∈ l, v < (nVars : Int)) := by
  constructor
  · intro ⟨l, hl⟩
    cases a with
    | nonList => simp [VariableLinkData.post_init] at hl
    | pylist xs =>
      refine ⟨xs, rfl, ?_⟩
      intro v hv
      simp only [VariableLinkData.post_init] at hl
      by_cases hall : xs.all (fun v => decide (v < (nVars : Int)))
      · have := List.all_eq_true.mp hall v hv
        exact of_decide_eq_true this
      · rw [if_neg hall] at hl
        exact absurd hl (by simp)
  · intro ⟨l, ha, hall⟩
    subst ha
    refine ⟨l, ?_⟩
    simp only [VariableLinkData.post_init]
    rw [if_pos]
    exact List.all_eq_true.mpr (fun v hv => decide_eq_true (hall v hv))

/-- Witness for C8 (amended) at a concrete input. -/
theorem C8_amended_construction_witness :
    (∃ l, VariableLinkData.post_init 2 (.pylist [0, 1]) = .ok l) ∧
    (∃ l, PyIndexesArg.pylist [0, 1] = .pylist l ∧ ∀ v ∈ l, v < ((2 : Nat) : Int)) := by
  constructor
  · exact (C8_amended_construction 2 (.pylist [0, 1])).mpr
      ⟨[0, 1], rfl, by intro v hv; fin_cases hv <;> omega⟩
  · exact (C8_amended_construction 2 (.pylist [0, 1])).mp ⟨[0, 1], rfl⟩

/-! ## Entity model (`bpd_helper.py` lines 126-273) -/

/-- `VariableLinkData` dataclass fields (`bpd_helper.py` lines 126-156). -/
structure VariableLinkData where
  variable_indexes : List Int
  property_name : String
  link_type : EBehaviorVariableLinkType
  connection_index : Int := 0
deriving DecidableEq

/-- `BehaviorLink` (`bpd_helper.py` lines 258-273).  `behavior` is the
arena index of the target `Behavior` object (see the header comment);
`delay` is a float used only via `str(...)`, modelled by its rendered
text (the Python default value `0` renders as `"0"`). -/
structure BehaviorLink where
  behavior : Nat
  link_id : Int := 0
  delay : String := "0"
deriving DecidableEq

/-- `Behavior` (`bpd_helper.py` lines 219-255).  The last two fields are
the class-level scratch attributes `_variables_ArrayIndexAndLength` and
`_output_ArrayIndexAndLength` (shadowed per instance when `generate_bpd`
assigns them); they are `ClassVar`s, hence NOT dataclass fields, and do
not participate in `==`. -/
structure BehaviorData where
  behavior : String
  linked_variables : List VariableLinkData := []
  output_links : List BehaviorLink := []
  variables_ArrayIndexAndLength : Int := 0
  output_ArrayIndexAndLength : Int := 0
deriving DecidableEq

/-- The three dataclass fields of `Behavior` — exactly what `==`,
`hash`, and the traversal read. -/
structure BehaviorCore where
  behavior : String
  linked_variables : List VariableLinkData
  output_links : List BehaviorLink
deriving DecidableEq

/-- Project a behavior onto its dataclass fields. -/
def BehaviorData.core (b : BehaviorData) : BehaviorCore :=
  ⟨b.behavior, b.linked_variables, b.output_links⟩

/-- `EventData` (`bpd_helper.py` lines 168-216).  `retrigger_delay` is a
float used only via `str(...)`, modelled by its rendered text. -/
structure EventData where
  event_name : String
  enabled : Bool := true
  replicate : Bool := false
  max_trigger_count : Int := 0
  retrigger_delay : String := "0.0"
  filter_object : String := "None"
  output_variables : List VariableLinkData := []
  output_links : List BehaviorLink := []
deriving DecidableEq

/-! ## Python-run results

`ok` is a normal return, `err` a raised exception (its message names the
exception), and `oof` is a model artifact: the modelling fuel of the
drain loop ran out (the claims prove it never happens for enough fuel). -/

inductive PRes (α : Type) where
  | ok : α → PRes α
  | err : String → PRes α
  | oof : PRes α
deriving DecidableEq

/-- Sequence two Python computations; exceptions propagate. -/
def PRes.bind {α β : Type} : PRes α → (α → PRes β) → PRes β
  | .ok a, f => f a
  | .err m, _ => .err m
  | .oof, _ => .oof

@[simp] theorem PRes.bind_ok {α β : Type} (a : α) (f : α → PRes β) :
    PRes.bind (.ok a) f = f a := rfl

@[simp] theorem PRes.bind_err {α β : Type} (m : String) (f : α → PRes β) :
    PRes.bind (.err m) f = .err m := rfl

@[simp] theorem PRes.bind_oof {α β : Type} (f : α → PRes β) :
    PRes.bind .oof f = .oof := rfl

/-- Lift a `struct` packing result: `none` is a raised `struct.error`. -/
def liftStruct {α : Type} : Option α → PRes α
  | some a => .ok a
  | none => .err "struct.error"

@[simp] theorem liftStruct_some {α : Type} (a : α) :
    liftStruct (some a) = .ok a := rfl

@[simp] theorem liftStruct_none {α : Type} :
    (liftStruct none : PRes α) = .err "struct.error" := rfl

/-! ## Python `==` on `Behavior` objects (C1, C3)

`Behavior` is `@dataclass(unsafe_hash=True)` with `hash=False` on both
list fields, so `hash` uses the label alone but `__eq__` compares the
tuple of ALL three dataclass fields (tuple and list comparison
element-wise via `PyObject_RichCompareBool`, which short-circuits on
object identity).  Comparing two DISTINCT behaviors recurses into the
behaviors referenced by their `output_links`; on cyclic object graphs
this recursion can be unbounded, which CPython terminates with
`RecursionError`.  The fuel argument models the recursion limit. -/

/-- Python `==` on two `BehaviorLink` values (dataclass field tuple:
target behavior first, then `link_id`, then `delay`), parameterized by
the behavior comparison at the current recursion depth. -/
def pyEqLinkAux (eqB : Nat → Nat → PRes Bool) (a b : BehaviorLink) : PRes Bool :=
  (eqB a.behavior b.behavior).bind fun e =>
    if e then .ok (decide (a.link_id = b.link_id ∧ a.delay = b.delay))
    else .ok false

/-- Python `==` on two lists of `BehaviorLink`, parameterized likewise. -/
def pyEqLinkListAux (eqB : Nat → Nat → PRes Bool) :
    List BehaviorLink → List BehaviorLink → PRes Bool
  | [], [] => .ok true
  | [], _ :: _ => .ok false
  | _ :: _, [] => .ok false
  | a :: as, b :: bs =>
    (pyEqLinkAux eqB a b).bind fun e =>
      if e then pyEqLinkListAux eqB as bs else .ok false

/-- Python `b1 == b2` on arena behaviors `i`, `j` of graph `g`, with
fuel modelling the interpreter recursion limit. -/
def pyEqB (g : List BehaviorData) : Nat → Nat → Nat → PRes Bool
  | 0, i, j => if i = j then .ok true else .err "RecursionError"
  | f + 1, i, j =>
    if i = j then .ok true
    else
      match g[i]?, g[j]? with
      | some bi, some bj =>
        if bi.behavior = bj.behavior then
          if bi.linked_variables = bj.linked_variables then
            pyEqLinkListAux (pyEqB g f) bi.output_links bj.output_links
          else .ok false
        else .ok false
      | _, _ => .err "unregistered behavior"

/-! ## Membership and index via Python `==` -/

/-- Python `i in known` / `i not in known` on a list of behaviors
(`list.__contains__` scans left to right with `PyObject_RichCompareBool`). -/
def pyMemList (g : List BehaviorData) (ef : Nat) (i : Nat) : List Nat → PRes Bool
  | [] => .ok false
  | k :: ks => (pyEqB g ef i k).bind fun e => if e then .ok true else pyMemList g ef i ks

/-- Python `known.index(behavior)`: position of the first `==` match. -/
def pyIndexList (g : List BehaviorData) (ef : Nat) (i : Nat) : List Nat → Nat → PRes Nat
  | [], _ => .err "ValueError"
  | k :: ks, acc =>
    (pyEqB g ef i k).bind fun e => if e then .ok acc else pyIndexList g ef i ks (acc + 1)

/-- The set comprehension
`{link.behavior for link in links if link.behavior not in known}`
(`bpd_helper.py` lines 380-388 and 423-431), producing the elements in
FIRST-ENCOUNTER order: per link, first the filter's membership test
against `known`, then (if it passed) the set-insertion `==` test against
the members already in the set.  The unspecified hash-table iteration
order of the resulting set is applied afterwards by the oracle `σ`. -/
def newUnseen (g : List BehaviorData) (ef : Nat) (known : List Nat) :
    List BehaviorLink → List Nat → PRes (List Nat)
  | [], acc => .ok acc
  | l :: ls, acc =>
    (pyMemList g ef l.behavior known).bind fun m1 =>
      if m1 then newUnseen g ef known ls acc
      else
        (pyMemList g ef l.behavior acc).bind fun m2 =>
          if m2 then newUnseen g ef known ls acc
          else newUnseen g ef known ls (acc ++ [l.behavior])

/-! ## Command string rendering -/

/-- Python `str(True)` / `str(False)`. -/
def pyBool (b : Bool) : String :=
  if b then "True" else "False"

/-- `VariableLinkData._command_str.format(...)` (lines 150-156, 307-312). -/
def renderVarLinkCmd (vl : VariableLinkData) (packed : Int) : String :=
  let p := vl.property_name
  let t := vl.link_type.pyName
  let c := toString vl.connection_index
  let a := toString packed
  s!"(PropertyName=\"{p}\",VariableLinkType={t},ConnectionIndex={c},LinkedVariables=(ArrayIndexAndLength={a}),CachedProperty=None)"

/-- `BehaviorLink._command_str.format(...)` (lines 273, 333-335). -/
def renderBehaviorLinkCmd (packed : Int) (delay : String) : String :=
  let a := toString packed
  s!"(LinkIdAndLinkedBehavior={a},ActivateDelay={delay})"

/-- `EventData._command_str.format(...)` (lines 193-202, 395-404). -/
def renderEventCmd (e : EventData) (ov ol : Int) : String :=
  let n := e.event_name
  let en := pyBool e.enabled
  let rep := pyBool e.replicate
  let mt := toString e.max_trigger_count
  let rd := e.retrigger_delay
  let fo := e.filter_object
  let a := toString ov
  let b := toString ol
  s!"(UserData=(EventName=\"{n}\",bEnabled={en},bReplicate={rep},MaxTriggerCount={mt},ReTriggerDelay={rd},FilterObject={fo}),OutputVariables=(ArrayIndexAndLength={a}),OutputLinks=(ArrayIndexAndLength={b}))"

/-- `Behavior._command_str.format(...)` (lines 239-241, 438-444), read
from the arena after the pass. -/
def renderBehaviorCmd (g : List BehaviorData) (i : Nat) : String :=
  match g[i]? with
  | some b =>
    let lbl := b.behavior
    let v := toString b.variables_ArrayIndexAndLength
    let o := toString b.output_ArrayIndexAndLength
    s!"(Behavior={lbl},LinkedVariables=(ArrayIndexAndLength={v}),OutputLinks=(ArrayIndexAndLength={o}))"
  | none => ""

/-! ## `get_var_link_commands` (`bpd_helper.py` lines 288-314, C4) -/

/-- One iteration of the `get_var_link_commands` loop: thread the
`variable_links` pool and emit one command.  `idx` starts at 0; with
more than one index it becomes the pool length before the `extend`;
with exactly one it is that index. -/
def gvlcStep (vl : VariableLinkData) (pool : List Int) : PRes (String × List Int) :=
  let length := vl.variable_indexes.length
  let idxPool : Int × List Int :=
    if length > 1 then ((pool.length : Int), pool ++ vl.variable_indexes)
    else if length = 1 then (vl.variable_indexes.headD 0, pool)
    else (0, pool)
  (liftStruct (get_arrayindexandlength idxPool.1 length)).bind fun packed =>
    .ok (renderVarLinkCmd vl packed, idxPool.2)

/-- `get_var_link_commands`: the whole loop, returning the emitted
commands and the extended pool. -/
def get_var_link_commands : List VariableLinkData → List Int → PRes (List String × List Int)
  | [], pool => .ok ([], pool)
  | vl :: rest, pool =>
    (gvlcStep vl pool).bind fun s1 =>
      (get_var_link_commands rest s1.2).bind fun r =>
        .ok (s1.1 :: r.1, r.2)

/-! ## `get_behavior_link_commands` (`bpd_helper.py` lines 317-337, C3) -/

/-- `get_behavior_link_commands`: for each link, append the target to
`known_behaviors` unless an `==`-equal member is already present, then
encode the link against `known_behaviors.index(target)` (first `==`
match). -/
def get_behavior_link_commands (g : List BehaviorData) (ef : Nat) :
    List BehaviorLink → List Nat → PRes (List String × List Nat)
  | [], known => .ok ([], known)
  | l :: ls, known =>
    (pyMemList g ef l.behavior known).bind fun m =>
      let known1 := if m then known else known ++ [l.behavior]
      (pyIndexList g ef l.behavior known1 0).bind fun idx =>
        (liftStruct (get_linkidandlinkedbehavior l.link_id (idx : Int))).bind fun packed =>
          (get_behavior_link_commands g ef ls known1).bind fun r =>
            .ok (renderBehaviorLinkCmd packed l.delay :: r.1, r.2)

/-! ## The linearization pass (`generate_bpd`, `bpd_helper.py` lines 340-501) -/

/-- The pass-local mutable state of `generate_bpd` (plus the behavior
arena `g`, whose scratch fields the pass mutates in place).  The work
stack keeps its TOP at the head: Python appends pushes at the end of
`behavior_stack` and pops `[-1]`, so `extend(reversed(σ u))` becomes
prepending `σ u`. -/
structure PassState where
  g : List BehaviorData
  event_cmds : List String
  blink_cmds : List String
  vlink_cmds : List String
  pool : List Int
  stack : List Nat
  known : List Nat
deriving DecidableEq

/-- The body of the `while len(behavior_stack) > 0` loop (lines 407-436)
for popped behavior `b` (already removed from `st.stack`). -/
def drainStep (σ : List Nat → List Nat) (ef : Nat) (b : Nat) (st : PassState) :
    PRes PassState :=
  match st.g[b]? with
  | none => .err "unregistered behavior"
  | some bd =>
    (liftStruct (get_arrayindexandlength (st.vlink_cmds.length : Int)
        bd.linked_variables.length)).bind fun v1 =>
      let g1 := st.g.set b { bd with variables_ArrayIndexAndLength := v1 }
      (get_var_link_commands bd.linked_variables st.pool).bind fun vc =>
        (liftStruct (get_arrayindexandlength (st.blink_cmds.length : Int)
            bd.output_links.length)).bind fun v2 =>
          let g2 := g1.set b { bd with variables_ArrayIndexAndLength := v1,
                                       output_ArrayIndexAndLength := v2 }
          (newUnseen g2 ef st.known bd.output_links []).bind fun u =>
            (get_behavior_link_commands g2 ef bd.output_links st.known).bind fun bc =>
              .ok { g := g2,
                    event_cmds := st.event_cmds,
                    blink_cmds := st.blink_cmds ++ bc.1,
                    vlink_cmds := st.vlink_cmds ++ vc.1,
                    pool := vc.2,
                    stack := σ u ++ st.stack,
                    known := bc.2 }

/-- The drain loop, with fuel `F` bounding the number of iterations the
model can take (the termination claim C1 shows a sufficient bound). -/
def drain (σ : List Nat → List Nat) (ef : Nat) : Nat → PassState → PRes PassState
  | 0, st =>
    match st.stack with
    | [] => .ok st
    | _ :: _ => .oof
  | F + 1, st =>
    match st.stack with
    | [] => .ok st
    | b :: rest => (drainStep σ ef b { st with stack := rest }).bind (drain σ ef F)

/-- The per-event part of the main loop (lines 367-405). -/
def eventStep (σ : List Nat → List Nat) (ef : Nat) (e : EventData) (st : PassState) :
    PRes PassState :=
  (liftStruct (get_arrayindexandlength (st.vlink_cmds.length : Int)
      e.output_variables.length)).bind fun ov =>
    (liftStruct (get_arrayindexandlength (st.blink_cmds.length : Int)
        e.output_links.length)).bind fun ol =>
      (get_var_link_commands e.output_variables st.pool).bind fun vc =>
        (newUnseen st.g ef st.known e.output_links []).bind fun u =>
          (get_behavior_link_commands st.g ef e.output_links st.known).bind fun bc =>
            .ok { g := st.g,
                  event_cmds := st.event_cmds ++ [renderEventCmd e ov ol],
                  blink_cmds := st.blink_cmds ++ bc.1,
                  vlink_cmds := st.vlink_cmds ++ vc.1,
                  pool := vc.2,
                  stack := σ u ++ st.stack,
                  known := bc.2 }

/-- `for event in _ALL_EVENTS:` — each event step followed by a full
drain of the shared work stack. -/
def runEvents (σ : List Nat → List Nat) (ef F : Nat) :
    List EventData → PassState → PRes PassState
  | [], st => .ok st
  | e :: es, st =>
    (eventStep σ ef e st).bind fun st1 =>
      (drain σ ef F st1).bind fun st2 =>
        runEvents σ ef F es st2

/-- The keyword arguments of `generate_bpd` (lines 340-348). -/
structure GenArgs where
  bpd_name : String
  sequence : Int := 0
  sequence_name : String := "Default"
  enabled_on_spawn : Bool := true
  sequence_enabled_mutex : Bool := false
  custom_enable_condition : String := "None"
  include_variable_data : Bool := false
deriving DecidableEq

/-- `(Name="{}",Type={})` for one variable (lines 446-450). -/
def renderVariableDataCmd (v : BpdVariable) : String :=
  let n := v.name
  let t := v.var_type.pyName
  s!"(Name=\"{n}\",Type={t})"

/-- One trailing per-variable `set ... VariableData[idx] ...` command
line (lines 494-500). -/
def renderTailCmd (args : GenArgs) (v : BpdVariable) : String :=
  let bn := args.bpd_name
  let sq := toString args.sequence
  let ix := toString v.idx
  let n := v.name
  let t := v.var_type.pyName
  s!"set {bn} BehaviorSequences[{sq}].VariableData[{ix}] (Name=\"{n}\",Type={t})\n"

/-- The full text written to the output file (lines 446-500): the main
joined block, then — when variable data is not inlined — one command per
`needs_command` variable. -/
def buildText (args : GenArgs) (vars : List BpdVariable) (st : PassState)
    (behavior_cmds : List String) : String :=
  let bn := args.bpd_name
  let sq := toString args.sequence
  let sn := args.sequence_name
  let eo := pyBool args.enabled_on_spawn
  let mx := pyBool args.sequence_enabled_mutex
  let ce := args.custom_enable_condition
  let ev := String.intercalate "," st.event_cmds
  let bh := String.intercalate "," behavior_cmds
  let ol := String.intercalate "," st.blink_cmds
  let vl := String.intercalate "," st.vlink_cmds
  let lv := String.intercalate "," (st.pool.map toString)
  let vd := String.intercalate "," (vars.map renderVariableDataCmd)
  let mainText :=
    if args.include_variable_data then
      String.intercalate "\n"
        [s!"set {bn} BehaviorSequences[{sq}]",
         "(",
         s!"    BehaviorSequenceName = \"{sn}\",",
         s!"    bEnabledOnSpawn = {eo},",
         s!"    bSequenceEnabledMutex = {mx},",
         s!"    CustomEnableCondition = {ce},",
         s!"    EventData2 = ({ev}),",
         s!"    BehaviorData2 = ({bh}),",
         s!"    VariableData = ({vd}),",
         s!"    ConsolidatedOutputLinkData = ({ol}),",
         s!"    ConsolidatedVariableLinkData = ({vl}),",
         s!"    ConsolidatedLinkedVariables = ({lv})",
         ")\n"]
    else
      String.intercalate "\n"
        [s!"set {bn} BehaviorSequences[{sq}]",
         "(",
         s!"    BehaviorSequenceName = \"{sn}\",",
         s!"    bEnabledOnSpawn = {eo},",
         s!"    bSequenceEnabledMutex = {mx},",
         s!"    CustomEnableCondition = {ce},",
         s!"    EventData2 = ({ev}),",
         s!"    BehaviorData2 = ({bh}),",
         s!"    ConsolidatedOutputLinkData = ({ol}),",
         s!"    ConsolidatedVariableLinkData = ({vl}),",
         s!"    ConsolidatedLinkedVariables = ({lv})",
         ")\n"]
  let tailText :=
    if args.include_variable_data then ""
    else String.join ((vars.filter (fun v => v.needs_command)).map (renderTailCmd args))
  mainText ++ tailText

/-- What a successful `generate_bpd` produces: the file text, the arena
after its in-place scratch-field mutations, and the final
`known_behaviors` (the behavior list, exposed for the claims about it). -/
structure GenOut where
  text : String
  g : List BehaviorData
  known : List Nat
deriving DecidableEq

/-- The pass-local state at entry (lines 358-366): empty command lists,
`variable_links = [x for x in range(len(_ALL_VARIABLES))]`, empty stack
and empty `known_behaviors`. -/
def initPState (vars : List BpdVariable) (g : List BehaviorData) : PassState :=
  { g := g, event_cmds := [], blink_cmds := [], vlink_cmds := [],
    pool := (List.range vars.length).map (fun n => (n : Int)),
    stack := [], known := [] }

/-- `generate_bpd` (lines 340-501): run the traversal over the
registered events against the behavior arena `g` and the variable
registry `vars`, then render the output text.  `σ` is the set-iteration
oracle, `ef` the comparison recursion limit, `F` the drain-loop fuel. -/
def generate_bpd (events : List EventData) (vars : List BpdVariable)
    (g : List BehaviorData) (σ : List Nat → List Nat) (ef F : Nat)
    (args : GenArgs) : PRes GenOut :=
  (runEvents σ ef F events (initPState vars g)).bind fun stF =>
    let behavior_cmds := stF.known.map (renderBehaviorCmd stF.g)
    .ok { text := buildText args vars stF behavior_cmds, g := stF.g, known := stF.known }

/-! ## C4: the `VariableLink` rendering rule -/

/-- C4: `generate_bpd` initializes `linked_variable_pool` to the
identity sequence `0..N-1`; and each rendered `VariableLink` behaves by
arity: 0 indices packs 0 and leaves the pool unchanged; exactly 1 index
packs length 1 with offset that index and leaves the pool unchanged;
`k > 1` indices appends exactly those `k` indices, in order, to the
pool and packs length `k` with offset the pool length before
appending (domains within the 16-bit fields). -/
theorem C4_var_link_rendering :
    (∀ (vars : List BpdVariable) (g : List BehaviorData),
      (initPState vars g).pool = (List.range vars.length).map (fun n => (n : Int))) ∧
    (∀ (vl : VariableLinkData) (pool : List Int),
      (vl.variable_indexes = [] →
        gvlcStep vl pool = .ok (renderVarLinkCmd vl 0, pool)) ∧
      (∀ v : Int, vl.variable_indexes = [v] → 0 ≤ v → v < 65536 →
        gvlcStep vl pool
          = .ok (renderVarLinkCmd vl (toInt32 (1 + 65536 * v)), pool)) ∧
      (2 ≤ vl.variable_indexes.length → vl.variable_indexes.length < 65536 →
        pool.length < 65536 →
        gvlcStep vl pool
          = .ok (renderVarLinkCmd vl
                   (toInt32 ((vl.variable_indexes.length : Int) + 65536 * (pool.length : Int))),
                 pool ++ vl.variable_indexes))) := by
  refine ⟨fun vars g => rfl, fun vl pool => ⟨?_, ?_, ?_⟩⟩
  · intro h0
    simp only [gvlcStep, h0, List.length_nil]
    rw [gai_zero]
    rfl
  · intro v h1 hv0 hv16
    simp only [gvlcStep, h1, List.length_cons, List.length_nil]
    norm_num
    rw [gai_some v 1 hv0 hv16 (by omega) (by omega)]
    rfl
  · intro hk hk16 hp16
    have hgt : vl.variable_indexes.length > 1 := by omega
    simp only [gvlcStep, if_pos hgt]
    rw [gai_some (pool.length : Int) vl.variable_indexes.length (Int.ofNat_nonneg _)
      (by exact_mod_cast hp16) (by omega) hk16]
    rfl

/-- Witness for C4 at concrete inputs (a 1-index link and a 3-index
link on a 2-element pool). -/
theorem C4_var_link_rendering_witness :
    (gvlcStep { variable_indexes := [7], property_name := "P",
                link_type := .BVARLINK_Context } [0, 1]
      = .ok (renderVarLinkCmd { variable_indexes := [7], property_name := "P",
                                link_type := .BVARLINK_Context } (toInt32 (1 + 65536 * 7)),
             [0, 1])) ∧
    (gvlcStep { variable_indexes := [4, 5, 6], property_name := "Q",
                link_type := .BVARLINK_Input } [0, 1]
      = .ok (renderVarLinkCmd { variable_indexes := [4, 5, 6], property_name := "Q",
                                link_type := .BVARLINK_Input }
               (toInt32 ((3 : Int) + 65536 * 2)),
             [0, 1, 4, 5, 6])) := by
  constructor
  · exact (C4_var_link_rendering.2 _ [0, 1]).2.1 7 rfl (by omega) (by omega)
  · exact (C4_var_link_rendering.2 _ [0, 1]).2.2 (by norm_num) (by norm_num) (by norm_num)

/-! ## Concrete graphs for the refuting evaluations (C1, C2, C3) -/

/-- Project a run onto the final behavior list (`known_behaviors`). -/
def knownOf (r : PRes GenOut) : PRes (List Nat) :=
  r.bind fun o => .ok o.known

/-- Arena for C2: `A → C`, `B → D`, `C`/`D` leaves. -/
def c2G : List BehaviorData :=
  [{ behavior := "A", output_links := [{ behavior := 2 }] },
   { behavior := "B", output_links := [{ behavior := 3 }] },
   { behavior := "C" }, { behavior := "D" }]

/-- One event linking to `A` then `B` (first encounter order [A, B]). -/
def c2Events : List EventData :=
  [{ event_name := "E", output_links := [{ behavior := 0 }, { behavior := 1 }] }]

/-- C2 (code bug evaluation): the push order — hence the drain order,
hence the discovery order of the behaviors found while draining — is the
reverse of the SET-ITERATION order of
`{link.behavior for link in ...}`, which CPython determines by hash
table layout, not by encounter order.  With the identity oracle
(set iterates in first-encounter order `[A, B]`) the final behavior
list is `[A, B, C, D]`; with the reversed oracle (set iterates
`[B, A]`, an equally admissible CPython ordering, third conjunct) it is
`[A, B, D, C]`: popping does NOT reliably yield first-encounter order,
contradicting the claim and the code's own comment
"add to stack in reverse order so they will be handled in order
linked to". -/
theorem C2_set_order_dependence :
    knownOf (generate_bpd c2Events [] c2G id 8 8 { bpd_name := "X" }) = .ok [0, 1, 2, 3] ∧
    knownOf (generate_bpd c2Events [] c2G List.reverse 8 8 { bpd_name := "X" })
      = .ok [0, 1, 3, 2] ∧
    ∀ l : List Nat, (List.reverse l).Perm l := by
  exact ⟨by decide, by decide, fun l => List.reverse_perm l⟩

/-- Arena for C3: two DISTINCT behavior objects with the same label
`"A"`, whose `linked_variables` lists differ. -/
def c3G : List BehaviorData :=
  [{ behavior := "A" },
   { behavior := "A",
     linked_variables := [{ variable_indexes := [], property_name := "X",
                            link_type := .BVARLINK_Input }] }]

/-- One event linking to both same-labelled behaviors. -/
def c3Events : List EventData :=
  [{ event_name := "E", output_links := [{ behavior := 0 }, { behavior := 1 }] }]

/-- C3 counterexample: dataclass `__eq__` compares ALL fields (only the
HASH is label-only: `hash=False` merely drops the list fields from
`__hash__`), so the two same-labelled behaviors with different
`linked_variables` do NOT dedupe: the final behavior list holds two
entries labelled `"A"`, at behavior indices 0 and 1, refuting
"identity used for deduplication is by label only ... dedupe to a
single entry ... resolves to the same behavior index". -/
theorem C3_counterexample :
    knownOf (generate_bpd c3Events [] c3G id 8 8 { bpd_name := "X" }) = .ok [0, 1] ∧
    c3G.map BehaviorData.behavior = ["A", "A"] := by
  exact ⟨by decide, by decide⟩

/-- C3 (amended): deduplication in `get_behavior_link_commands` is by
Python `==` over all three dataclass fields (with the object-identity
fast path): for two links targeting behaviors `i` then `j`, if
`j == i` evaluates false both targets enter `known_behaviors` and the
links resolve to the distinct indices 0 and 1; if it evaluates true
(all fields equal) the targets dedupe to the single entry `[i]` and
BOTH links resolve to the same index 0. -/
theorem C3_amended_identity (g : List BehaviorData) (ef : Nat) (i j : Nat)
    (li lj : BehaviorLink) (hi : li.behavior = i) (hj : lj.behavior = j)
    (hid : li.link_id = 0) (hjd : lj.link_id = 0) :
    (pyEqB g ef j i = .ok false →
      get_behavior_link_commands g ef [li, lj] []
        = .ok ([renderBehaviorLinkCmd 0 li.delay, renderBehaviorLinkCmd 1 lj.delay],
               [i, j])) ∧
    (pyEqB g ef j i = .ok true →
      get_behavior_link_commands g ef [li, lj] []
        = .ok ([renderBehaviorLinkCmd 0 li.delay, renderBehaviorLinkCmd 0 lj.delay],
               [i])) := by
  have hii : pyEqB g ef i i = .ok true := by
    cases ef with
    | zero => simp [pyEqB]
    | succ f => simp [pyEqB]
  have hjj : pyEqB g ef j j = .ok true := by
    cases ef with
    | zero => simp [pyEqB]
    | succ f => simp [pyEqB]
  have pack0 : liftStruct (get_linkidandlinkedbehavior 0 ((0 : Nat) : Int)) = PRes.ok 0 := by
    rfl
  have pack1 : liftStruct (get_linkidandlinkedbehavior 0 ((1 : Nat) : Int)) = PRes.ok 1 := by
    rfl
  constructor
  · intro hne
    simp only [get_behavior_link_commands, pyMemList, hi, hj, hid, hjd, hii, hjj, hne,
      PRes.bind_ok, pyIndexList, List.nil_append, if_true, if_false, Bool.false_eq_true,
      ite_true, ite_false]
    norm_num
    rfl
  · intro heq
    simp only [get_behavior_link_commands, pyMemList, hi, hj, hid, hjd, hii, hjj, heq,
      PRes.bind_ok, pyIndexList, List.nil_append, if_true, if_false, Bool.false_eq_true,
      ite_true, ite_false]
    norm_num
    rfl

/-- Witness for C3 (amended), applying it on the `c3G` arena (the
unequal case) and on a one-behavior self-identical arena (the equal
case, two links to the same object). -/
theorem C3_amended_identity_witness :
    (pyEqB c3G 8 1 0 = .ok false ∧
      get_behavior_link_commands c3G 8 [{ behavior := 0 }, { behavior := 1 }] []
        = .ok ([renderBehaviorLinkCmd 0 "0", renderBehaviorLinkCmd 1 "0"], [0, 1])) ∧
    (pyEqB c2G 8 2 2 = .ok true ∧
      get_behavior_link_commands c2G 8 [{ behavior := 2 }, { behavior := 2 }] []
        = .ok ([renderBehaviorLinkCmd 0 "0", renderBehaviorLinkCmd 0 "0"], [2])) := by
  constructor
  · exact ⟨by decide,
      (C3_amended_identity c3G 8 0 1 { behavior := 0 } { behavior := 1 }
        rfl rfl rfl rfl).1 (by decide)⟩
  · exact ⟨by decide,
      (C3_amended_identity c2G 8 2 2 { behavior := 2 } { behavior := 2 }
        rfl rfl rfl rfl).2 (by decide)⟩

/-- Arena for C1: two DISTINCT behaviors, both labelled `"A"`, each
with a self-loop output link — a cyclic link graph. -/
def c1G : List BehaviorData :=
  [{ behavior := "A", output_links := [{ behavior := 0 }] },
   { behavior := "A", output_links := [{ behavior := 1 }] }]

/-- One event linking to both self-looping behaviors. -/
def c1Events : List EventData :=
  [{ event_name := "E", output_links := [{ behavior := 0 }, { behavior := 1 }] }]

/-- Comparing the two distinct same-labelled self-looping behaviors
recurses forever: at EVERY recursion limit the comparison ends in
`RecursionError` (labels equal, `linked_variables` equal, and the
output-link comparison recurses into the same behavior pair). -/
theorem pyEqB_c1_diverges : ∀ ef, pyEqB c1G ef 1 0 = .err "RecursionError" := by
  intro ef
  induction ef with
  | zero => simp [pyEqB]
  | succ f ih =>
    have step : pyEqB c1G (f + 1) 1 0
        = pyEqLinkListAux (pyEqB c1G f)
            [{ behavior := 1, link_id := 0, delay := "0" }]
            [{ behavior := 0, link_id := 0, delay := "0" }] := by
      rfl
    rw [step]
    simp only [pyEqLinkListAux, pyEqLinkAux, ih, PRes.bind_err]

set_option maxRecDepth 20000 in
/-- C1 counterexample: on the cyclic `c1G` graph the pass raises
`RecursionError` while testing `link.behavior not in known_behaviors`
(shown here at recursion limit 60; `pyEqB_c1_diverges` shows the
comparison diverges at EVERY limit), so no final behavior list is
produced at all: the traversal does not complete with every reachable
behavior appearing exactly once. -/
theorem C1_counterexample :
    generate_bpd c1Events [] c1G id 60 60 { bpd_name := "X" }
      = .err "RecursionError" := by
  decide

/-! ## Basic facts about the Python comparison primitives -/

/-- Python `==` is reflexive on behaviors via the identity fast path. -/
theorem pyEqB_refl (g : List BehaviorData) (ef i : Nat) :
    pyEqB g ef i i = .ok true := by
  cases ef with
  | zero => simp [pyEqB]
  | succ f => simp [pyEqB]

/-- A completed `x not in l` answer of `False`... i.e. a completed
membership scan answering `False` really means the identity is absent. -/
theorem pyMemList_ok_false_not_mem (g : List BehaviorData) (ef i : Nat) :
    ∀ l : List Nat, pyMemList g ef i l = .ok false → i ∉ l := by
  intro l
  induction l with
  | nil => intro _ h; simp at h
  | cons k ks ih =>
    intro h
    by_cases hik : i = k
    · subst hik
      rw [show pyMemList g ef i (i :: ks) = .ok true by
        simp [pyMemList, pyEqB_refl]] at h
      simp at h
    · intro hmem
      rcases List.mem_cons.mp hmem with h1 | h2
      · exact hik h1
      · simp only [pyMemList] at h
        cases he : pyEqB g ef i k with
        | ok b =>
          rw [he] at h
          cases b with
          | true => simp at h
          | false =>
            simp only [PRes.bind_ok, Bool.false_eq_true, if_false] at h
            exact (ih h) h2
        | err m => rw [he] at h; simp at h
        | oof => rw [he] at h; simp at h

/-- Scanning an appended membership list is sequential scanning. -/
theorem pyMemList_append (g : List BehaviorData) (ef i : Nat) (l1 l2 : List Nat) :
    pyMemList g ef i (l1 ++ l2)
      = (pyMemList g ef i l1).bind fun b => if b then .ok true else pyMemList g ef i l2 := by
  induction l1 with
  | nil => simp [pyMemList]
  | cons k ks ih =>
    simp only [List.cons_append, pyMemList]
    cases he : pyEqB g ef i k with
    | ok b =>
      cases b with
      | true => simp
      | false => simp [ih]
    | err m => simp
    | oof => simp

/-- What a successful set comprehension produces: the accumulator is
extended, in first-encounter order, by targets of the links that are in
neither `known` nor the accumulator, without duplicates. -/
theorem newUnseen_spec (g : List BehaviorData) (ef : Nat) (K : List Nat) :
    ∀ (links : List BehaviorLink) (A u : List Nat),
      newUnseen g ef K links A = .ok u →
      ∃ w, u = A ++ w ∧
        (∀ x ∈ w, x ∉ A ∧ x ∉ K ∧ ∃ l ∈ links, l.behavior = x) ∧
        (A.Nodup → u.Nodup) := by
  intro links
  induction links with
  | nil =>
    intro A u h
    simp only [newUnseen] at h
    refine ⟨[], by simp [← PRes.ok.injEq _ _ ▸ h], by simp, ?_⟩
    intro hA
    have : A = u := by
      have := h
      simp only [PRes.ok.injEq] at this
      exact this
    rw [← this]
    exact hA
  | cons l ls ih =>
    intro A u h
    simp only [newUnseen] at h
    cases h1 : pyMemList g ef l.behavior K with
    | ok m1 =>
      rw [h1] at h
      simp only [PRes.bind_ok] at h
      cases m1 with
      | true =>
        simp only [if_true] at h
        obtain ⟨w, hw1, hw2, hw3⟩ := ih A u h
        exact ⟨w, hw1, fun x hx =>
          ⟨(hw2 x hx).1, (hw2 x hx).2.1, (hw2 x hx).2.2.imp fun a ⟨ha, hb⟩ =>
            ⟨List.mem_cons_of_mem _ ha, hb⟩⟩, hw3⟩
      | false =>
        simp only [Bool.false_eq_true, if_false] at h
        cases h2 : pyMemList g ef l.behavior A with
        | ok m2 =>
          rw [h2] at h
          simp only [PRes.bind_ok] at h
          cases m2 with
          | true =>
            simp only [if_true] at h
            obtain ⟨w, hw1, hw2, hw3⟩ := ih A u h
            exact ⟨w, hw1, fun x hx =>
              ⟨(hw2 x hx).1, (hw2 x hx).2.1, (hw2 x hx).2.2.imp fun a ⟨ha, hb⟩ =>
                ⟨List.mem_cons_of_mem _ ha, hb⟩⟩, hw3⟩
          | false =>
            simp only [Bool.false_eq_true, if_false] at h
            obtain ⟨w, hw1, hw2, hw3⟩ := ih (A ++ [l.behavior]) u h
            have hAn : l.behavior ∉ A := pyMemList_ok_false_not_mem g ef _ A h2
            have hKn : l.behavior ∉ K := pyMemList_ok_false_not_mem g ef _ K h1
            refine ⟨l.behavior :: w, by simpa using hw1, ?_, ?_⟩
            · intro x hx
              rcases List.mem_cons.mp hx with rfl | hx'
              · exact ⟨hAn, hKn, l, List.mem_cons_self _ _, rfl⟩
              · obtain ⟨ha, hb, hc⟩ := hw2 x hx'
                refine ⟨fun hxA => ha (List.mem_append_left _ hxA), hb,
                  hc.imp fun a ⟨ha', hb'⟩ => ⟨List.mem_cons_of_mem _ ha', hb'⟩⟩
            · intro hA
              apply hw3
              rw [List.nodup_append]
              exact ⟨hA, List.nodup_singleton _, by simpa using hAn⟩
        | err m => rw [h2] at h; simp at h
        | oof => rw [h2] at h; simp at h
    | err m => rw [h1] at h; simp at h
    | oof => rw [h1] at h; simp at h

/-- Unfolding equation, empty link list. -/
theorem gblc_nil_eq (g : List BehaviorData) (ef : Nat) (K : List Nat) :
    get_behavior_link_commands g ef [] K = .ok ([], K) := rfl

/-- Unfolding equation, one link peeled off. -/
theorem gblc_cons_eq (g : List BehaviorData) (ef : Nat) (l : BehaviorLink)
    (ls : List BehaviorLink) (K : List Nat) :
    get_behavior_link_commands g ef (l :: ls) K
      = (pyMemList g ef l.behavior K).bind fun m =>
          (pyIndexList g ef l.behavior (if m then K else K ++ [l.behavior]) 0).bind fun idx =>
            (liftStruct (get_linkidandlinkedbehavior l.link_id (idx : Int))).bind fun packed =>
              (get_behavior_link_commands g ef ls (if m then K else K ++ [l.behavior])).bind fun r =>
                .ok (renderBehaviorLinkCmd packed l.delay :: r.1, r.2) := rfl

/-- A successful `get_behavior_link_commands` only appends to
`known_behaviors`. -/
theorem gblc_extends (g : List BehaviorData) (ef : Nat) :
    ∀ (links : List BehaviorLink) (K : List Nat) (cmds : List String) (kn : List Nat),
      get_behavior_link_commands g ef links K = .ok (cmds, kn) →
      ∃ app, kn = K ++ app := by
  intro links
  induction links with
  | nil =>
    intro K cmds kn h
    rw [gblc_nil_eq] at h
    injection h with h
    injection h with h1 h2
    exact ⟨[], by simp [← h2]⟩
  | cons l ls ih =>
    intro K cmds kn h
    rw [gblc_cons_eq] at h
    cases h1 : pyMemList g ef l.behavior K with
    | ok m =>
      rw [h1, PRes.bind_ok] at h
      cases h2 : pyIndexList g ef l.behavior (if m then K else K ++ [l.behavior]) 0 with
      | ok idx =>
        rw [h2, PRes.bind_ok] at h
        cases h3 : liftStruct (get_linkidandlinkedbehavior l.link_id (idx : Int)) with
        | ok packed =>
          rw [h3, PRes.bind_ok] at h
          cases h4 : get_behavior_link_commands g ef ls (if m then K else K ++ [l.behavior]) with
          | ok r =>
            rw [h4, PRes.bind_ok] at h
            injection h with h
            injection h with h5 h6
            obtain ⟨app, happ⟩ := ih _ r.1 r.2 (by rw [h4])
            cases m with
            | true =>
              refine ⟨app, ?_⟩
              rw [← h6, happ]
              simp
            | false =>
              refine ⟨l.behavior :: app, ?_⟩
              rw [← h6, happ]
              simp
          | err mm => rw [h4, PRes.bind_err] at h; exact absurd h (by simp)
          | oof => rw [h4, PRes.bind_oof] at h; exact absurd h (by simp)
        | err mm => rw [h3, PRes.bind_err] at h; exact absurd h (by simp)
        | oof => rw [h3, PRes.bind_oof] at h; exact absurd h (by simp)
      | err mm => rw [h2, PRes.bind_err] at h; exact absurd h (by simp)
      | oof => rw [h2, PRes.bind_oof] at h; exact absurd h (by simp)
    | err mm => rw [h1, PRes.bind_err] at h; exact absurd h (by simp)
    | oof => rw [h1, PRes.bind_oof] at h; exact absurd h (by simp)

/-- Unfolding equation for the set comprehension, empty link list. -/
theorem newUnseen_nil_eq (g : List BehaviorData) (ef : Nat) (K A : List Nat) :
    newUnseen g ef K [] A = .ok A := rfl

/-- Unfolding equation for the set comprehension, one link peeled off. -/
theorem newUnseen_cons_eq (g : List BehaviorData) (ef : Nat) (K A : List Nat)
    (l : BehaviorLink) (ls : List BehaviorLink) :
    newUnseen g ef K (l :: ls) A
      = (pyMemList g ef l.behavior K).bind fun m1 =>
          if m1 then newUnseen g ef K ls A
          else
            (pyMemList g ef l.behavior A).bind fun m2 =>
              if m2 then newUnseen g ef K ls A
              else newUnseen g ef K ls (A ++ [l.behavior]) := rfl

/-- Dispatcher: a successful tail of one `get_behavior_link_commands`
iteration (index lookup, packing, recursion) yields the same final
`known_behaviors` as the recursion alone. -/
theorem gblc_tail_known (g : List BehaviorData) (ef : Nat) (l : BehaviorLink)
    (ls : List BehaviorLink) (K' : List Nat) (cmds : List String) (kn : List Nat)
    (h : ((pyIndexList g ef l.behavior K' 0).bind fun idx =>
          (liftStruct (get_linkidandlinkedbehavior l.link_id (idx : Int))).bind fun packed =>
            (get_behavior_link_commands g ef ls K').bind fun r =>
              PRes.ok (renderBehaviorLinkCmd packed l.delay :: r.1, r.2)) = .ok (cmds, kn)) :
    ∃ cmds', get_behavior_link_commands g ef ls K' = .ok (cmds', kn) := by
  cases h3 : pyIndexList g ef l.behavior K' 0 with
  | ok idx =>
    rw [h3, PRes.bind_ok] at h
    cases h4 : liftStruct (get_linkidandlinkedbehavior l.link_id (idx : Int)) with
    | ok packed =>
      rw [h4, PRes.bind_ok] at h
      cases h5 : get_behavior_link_commands g ef ls K' with
      | ok r =>
        obtain ⟨c1, k1⟩ := r
        rw [h5, PRes.bind_ok] at h
        injection h with h
        injection h with ha hb
        subst hb
        exact ⟨c1, rfl⟩
      | err mm => rw [h5, PRes.bind_err] at h; exact absurd h (by simp)
      | oof => rw [h5, PRes.bind_oof] at h; exact absurd h (by simp)
    | err mm => rw [h4, PRes.bind_err] at h; exact absurd h (by simp)
    | oof => rw [h4, PRes.bind_oof] at h; exact absurd h (by simp)
  | err mm => rw [h3, PRes.bind_err] at h; exact absurd h (by simp)
  | oof => rw [h3, PRes.bind_oof] at h; exact absurd h (by simp)

/-- The stack pushes and the `known_behaviors` appends of one
link-list step agree: when the set comprehension (seeded with
accumulator `A`) yields `u` and `get_behavior_link_commands` succeeds
on the same links against `K ++ A`, the final `known_behaviors` is
exactly `K ++ u` — both sides gate on the same `==` scans in the same
order. -/
theorem gblc_newUnseen_agree (g : List BehaviorData) (ef : Nat) (K : List Nat) :
    ∀ (links : List BehaviorLink) (A u : List Nat) (cmds : List String) (kn : List Nat),
      newUnseen g ef K links A = .ok u →
      get_behavior_link_commands g ef links (K ++ A) = .ok (cmds, kn) →
      kn = K ++ u := by
  intro links
  induction links with
  | nil =>
    intro A u cmds kn h1 h2
    rw [newUnseen_nil_eq] at h1
    rw [gblc_nil_eq] at h2
    injection h1 with h1
    injection h2 with h2
    injection h2 with h2a h2b
    rw [← h2b, h1]
  | cons l ls ih =>
    intro A u cmds kn h1 h2
    rw [newUnseen_cons_eq] at h1
    rw [gblc_cons_eq, pyMemList_append] at h2
    cases hK : pyMemList g ef l.behavior K with
    | ok mK =>
      rw [hK, PRes.bind_ok] at h1
      rw [hK, PRes.bind_ok] at h2
      cases mK with
      | true =>
        simp only [if_true] at h1 h2
        obtain ⟨cmds', h5⟩ := gblc_tail_known g ef l ls (K ++ A) cmds kn h2
        exact ih A u cmds' kn h1 h5
      | false =>
        simp only [Bool.false_eq_true, if_false] at h1 h2
        cases hA : pyMemList g ef l.behavior A with
        | ok mA =>
          rw [hA, PRes.bind_ok] at h1
          rw [hA, PRes.bind_ok] at h2
          cases mA with
          | true =>
            simp only [if_true] at h1 h2
            obtain ⟨cmds', h5⟩ := gblc_tail_known g ef l ls (K ++ A) cmds kn h2
            exact ih A u cmds' kn h1 h5
          | false =>
            simp only [Bool.false_eq_true, if_false] at h1 h2
            obtain ⟨cmds', h5⟩ := gblc_tail_known g ef l ls ((K ++ A) ++ [l.behavior]) cmds kn
              (by simpa using h2)
            refine ih (A ++ [l.behavior]) u cmds' kn h1 ?_
            rw [← List.append_assoc]
            exact h5
        | err mm => rw [hA, PRes.bind_err] at h1; exact absurd h1 (by simp)
        | oof => rw [hA, PRes.bind_oof] at h1; exact absurd h1 (by simp)
    | err mm => rw [hK, PRes.bind_err] at h1; exact absurd h1 (by simp)
    | oof => rw [hK, PRes.bind_oof] at h1; exact absurd h1 (by simp)

/-! ## The model fuel (`oof`) is only consumed by the drain loop -/

/-- Python comparisons end in a value or a raised exception. -/
theorem pyEqLinkAux_no_oof (eqB : Nat → Nat → PRes Bool)
    (h : ∀ i j, eqB i j ≠ .oof) (a b : BehaviorLink) :
    pyEqLinkAux eqB a b ≠ .oof := by
  unfold pyEqLinkAux
  cases he : eqB a.behavior b.behavior with
  | ok e => cases e <;> simp
  | err m => simp
  | oof => exact absurd he (h _ _)

/-- Python list comparisons end in a value or a raised exception. -/
theorem pyEqLinkListAux_no_oof (eqB : Nat → Nat → PRes Bool)
    (h : ∀ i j, eqB i j ≠ .oof) :
    ∀ l1 l2 : List BehaviorLink, pyEqLinkListAux eqB l1 l2 ≠ .oof := by
  intro l1
  induction l1 with
  | nil => intro l2; cases l2 <;> simp [pyEqLinkListAux]
  | cons a as ih =>
    intro l2
    cases l2 with
    | nil => simp [pyEqLinkListAux]
    | cons b bs =>
      simp only [pyEqLinkListAux]
      cases he : pyEqLinkAux eqB a b with
      | ok e =>
        cases e with
        | true => simpa using ih bs
        | false => simp
      | err m => simp
      | oof => exact absurd he (pyEqLinkAux_no_oof eqB h a b)

/-- `pyEqB` ends in a value or `RecursionError`, never in model fuel
exhaustion. -/
theorem pyEqB_no_oof (g : List BehaviorData) :
    ∀ (ef i j : Nat), pyEqB g ef i j ≠ .oof := by
  intro ef
  induction ef with
  | zero =>
    intro i j
    by_cases hij : i = j <;> simp [pyEqB, hij]
  | succ f ih =>
    intro i j
    by_cases hij : i = j
    · simp [pyEqB, hij]
    · simp only [pyEqB, if_neg hij]
      cases g[i]? with
      | none => cases g[j]? <;> simp
      | some bi =>
        cases g[j]? with
        | none => simp
        | some bj =>
          by_cases hb : bi.behavior = bj.behavior
          · simp only [if_pos hb]
            by_cases hv : bi.linked_variables = bj.linked_variables
            · simp only [if_pos hv]
              exact pyEqLinkListAux_no_oof _ ih _ _
            · simp [if_neg hv]
          · simp [if_neg hb]

/-- Membership scans never exhaust the model fuel. -/
theorem pyMemList_no_oof (g : List BehaviorData) (ef i : Nat) :
    ∀ l : List Nat, pyMemList g ef i l ≠ .oof := by
  intro l
  induction l with
  | nil => simp [pyMemList]
  | cons k ks ih =>
    simp only [pyMemList]
    cases he : pyEqB g ef i k with
    | ok e => cases e <;> simp [ih]
    | err m => simp
    | oof => exact absurd he (pyEqB_no_oof g ef i k)

/-- Index scans never exhaust the model fuel. -/
theorem pyIndexList_no_oof (g : List BehaviorData) (ef i : Nat) :
    ∀ (l : List Nat) (acc : Nat), pyIndexList g ef i l acc ≠ .oof := by
  intro l
  induction l with
  | nil => simp [pyIndexList]
  | cons k ks ih =>
    intro acc
    simp only [pyIndexList]
    cases he : pyEqB g ef i k with
    | ok e => cases e <;> simp [ih]
    | err m => simp
    | oof => exact absurd he (pyEqB_no_oof g ef i k)

/-- Binding cannot produce model fuel exhaustion if neither side does. -/
theorem bind_no_oof {α β : Type} {x : PRes α} {f : α → PRes β}
    (hx : x ≠ .oof) (hf : ∀ a, f a ≠ .oof) : x.bind f ≠ .oof := by
  cases x with
  | ok a => simpa using hf a
  | err m => simp
  | oof => exact absurd rfl hx

/-- Lifted struct results are values or struct errors. -/
theorem liftStruct_no_oof {α : Type} (o : Option α) : liftStruct o ≠ .oof := by
  cases o <;> simp

/-- The set comprehension never exhausts the model fuel. -/
theorem newUnseen_no_oof (g : List BehaviorData) (ef : Nat) (K : List Nat) :
    ∀ (links : List BehaviorLink) (A : List Nat), newUnseen g ef K links A ≠ .oof := by
  intro links
  induction links with
  | nil => intro A; simp [newUnseen_nil_eq]
  | cons l ls ih =>
    intro A
    rw [newUnseen_cons_eq]
    apply bind_no_oof (pyMemList_no_oof g ef _ K)
    intro m1
    cases m1 with
    | true => simpa using ih A
    | false =>
      simp only [Bool.false_eq_true, if_false]
      apply bind_no_oof (pyMemList_no_oof g ef _ A)
      intro m2
      cases m2 <;> simp [ih]

/-- One `get_var_link_commands` iteration never exhausts the model fuel. -/
theorem gvlcStep_no_oof (vl : VariableLinkData) (pool : List Int) :
    gvlcStep vl pool ≠ .oof := by
  unfold gvlcStep
  apply bind_no_oof (liftStruct_no_oof _)
  intro a
  simp

/-- `get_var_link_commands` never exhausts the model fuel. -/
theorem gvlc_no_oof :
    ∀ (links : List VariableLinkData) (pool : List Int),
      get_var_link_commands links pool ≠ .oof := by
  intro links
  induction links with
  | nil => intro pool; simp [get_var_link_commands]
  | cons vl rest ih =>
    intro pool
    show (gvlcStep vl pool).bind _ ≠ .oof
    apply bind_no_oof (gvlcStep_no_oof vl pool)
    intro s1
    apply bind_no_oof (ih s1.2)
    intro r
    simp

/-- `get_behavior_link_commands` never exhausts the model fuel. -/
theorem gblc_no_oof (g : List BehaviorData) (ef : Nat) :
    ∀ (links : List BehaviorLink) (K : List Nat),
      get_behavior_link_commands g ef links K ≠ .oof := by
  intro links
  induction links with
  | nil => intro K; simp [gblc_nil_eq]
  | cons l ls ih =>
    intro K
    rw [gblc_cons_eq]
    apply bind_no_oof (pyMemList_no_oof g ef _ K)
    intro m
    apply bind_no_oof (pyIndexList_no_oof g ef _ _ 0)
    intro idx
    apply bind_no_oof (liftStruct_no_oof _)
    intro packed
    apply bind_no_oof (ih _)
    intro r
    simp

/-! ## Counting helpers and core transport -/

/-- A duplicate-free list of indices below `n` has at most `n`
elements. -/
theorem nodup_lt_length_le (l : List Nat) (n : Nat) (h1 : l.Nodup)
    (h2 : ∀ x ∈ l, x < n) : l.length ≤ n := by
  have hcard : l.toFinset.card = l.length := by
    rw [List.card_toFinset, List.Nodup.dedup h1]
  have hsub : l.toFinset ⊆ Finset.range n := by
    intro x hx
    exact Finset.mem_range.mpr (h2 x (List.mem_toFinset.mp hx))
  have := Finset.card_le_card hsub
  rw [hcard, Finset.card_range] at this
  exact this

/-- Lookup through a core-equal pair of arenas. -/
theorem core_lookup {g' g0 : List BehaviorData}
    (hc : g'.map BehaviorData.core = g0.map BehaviorData.core) (i : Nat) :
    (g'[i]?).map BehaviorData.core = (g0[i]?).map BehaviorData.core := by
  rw [← List.getElem?_map, ← List.getElem?_map, hc]

/-- Core-equal arenas have equal length. -/
theorem core_length {g' g0 : List BehaviorData}
    (hc : g'.map BehaviorData.core = g0.map BehaviorData.core) :
    g'.length = g0.length := by
  have := congrArg List.length hc
  simpa using this

/-- Core-equal arenas carry the same labels. -/
theorem core_labels {g' g0 : List BehaviorData}
    (hc : g'.map BehaviorData.core = g0.map BehaviorData.core) :
    g'.map (fun b => b.behavior) = g0.map (fun b => b.behavior) := by
  have h1 : g'.map (fun b => b.behavior)
      = (g'.map BehaviorData.core).map (fun c => c.behavior) := by
    rw [List.map_map]
    rfl
  have h2 : g0.map (fun b => b.behavior)
      = (g0.map BehaviorData.core).map (fun c => c.behavior) := by
    rw [List.map_map]
    rfl
  rw [h1, h2, hc]

/-- Overwriting an arena slot with a behavior of the same core (i.e.
changing only scratch fields) preserves the core view. -/
theorem set_same_core (g : List BehaviorData) (b : Nat) (bd x : BehaviorData)
    (hlook : g[b]? = some bd) (hx : x.core = bd.core) :
    (g.set b x).map BehaviorData.core = g.map BehaviorData.core := by
  have hlt : b < g.length := by
    by_contra hb
    rw [List.getElem?_eq_none (Nat.le_of_not_lt hb)] at hlook
    exact absurd hlook (by simp)
  apply List.ext_getElem?
  intro n
  rw [List.getElem?_map, List.getElem?_map]
  by_cases hn : n = b
  · subst hn
    rw [List.getElem?_set_self hlt, hlook]
    simp [hx]
  · rw [List.getElem?_set_ne (by omega)]

/-! ## Collapse of Python `==` under pairwise distinct labels -/

/-- When all behaviors carry pairwise distinct labels, Python `==` on
valid arena indices is plain index equality (the tuple comparison
short-circuits on the label), at any recursion limit `≥ 1`. -/
theorem pyEqB_labels (g : List BehaviorData)
    (hnd : (g.map (fun b => b.behavior)).Nodup) (ef i j : Nat) (hef : 1 ≤ ef)
    (hi : i < g.length) (hj : j < g.length) :
    pyEqB g ef i j = .ok (decide (i = j)) := by
  by_cases hij : i = j
  · subst hij
    simp [pyEqB_refl]
  · obtain ⟨f, rfl⟩ : ∃ f, ef = f + 1 := ⟨ef - 1, by omega⟩
    have hlab : g[i].behavior ≠ g[j].behavior := by
      intro he
      have h1 : (List.map (fun b => b.behavior) g)[i]? = some g[i].behavior := by
        rw [List.getElem?_map, List.getElem?_eq_getElem hi]
        rfl
      have h2 : (List.map (fun b => b.behavior) g)[j]? = some g[j].behavior := by
        rw [List.getElem?_map, List.getElem?_eq_getElem hj]
        rfl
      have hij2 : (List.map (fun b => b.behavior) g)[i]?
          = (List.map (fun b => b.behavior) g)[j]? := by
        rw [h1, h2, he]
      rcases Nat.lt_or_ge i j with hlt | hge
      · exact (List.nodup_iff_getElem?_ne_getElem?.mp hnd i j hlt (by simpa using hj)) hij2
      · have hlt : j < i := by omega
        exact (List.nodup_iff_getElem?_ne_getElem?.mp hnd j i hlt (by simpa using hi)) hij2.symm
    simp only [pyEqB, if_neg hij, List.getElem?_eq_getElem hi, List.getElem?_eq_getElem hj]
    rw [if_neg hlab]
    simp [hij]

/-- Under distinct labels, a membership scan over valid indices is a
plain list membership test. -/
theorem pyMemList_labels (g : List BehaviorData)
    (hnd : (g.map (fun b => b.behavior)).Nodup) (ef i : Nat) (hef : 1 ≤ ef)
    (hi : i < g.length) :
    ∀ ks : List Nat, (∀ k ∈ ks, k < g.length) →
      pyMemList g ef i ks = .ok (decide (i ∈ ks)) := by
  intro ks
  induction ks with
  | nil => intro _; simp [pyMemList]
  | cons k ks ih =>
    intro hks
    simp only [pyMemList]
    rw [pyEqB_labels g hnd ef i k hef hi (hks k (List.mem_cons_self _ _)), PRes.bind_ok]
    by_cases hik : i = k
    · subst hik
      simp
    · rw [if_neg (show ¬ decide (i = k) = true by simp [hik])]
      rw [ih (fun x hx => hks x (List.mem_cons_of_mem _ hx))]
      simp [List.mem_cons, hik]

/-! ## The traversal invariant -/

/-- Every behavior's outbound links point into the arena.  In the
source this holds by construction: `Behavior.__post_init__` registers
every behavior in `_ALL_BEHAVIORS`, and links refer to registered
objects. -/
def ClosedG (g0 : List BehaviorData) : Prop :=
  ∀ bd ∈ g0, ∀ l ∈ bd.output_links, l.behavior < g0.length

/-- Every event's outbound links point into the arena. -/
def ClosedE (events : List EventData) (g0 : List BehaviorData) : Prop :=
  ∀ e ∈ events, ∀ l ∈ e.output_links, l.behavior < g0.length

/-- The state invariant of the pass, relative to the arena `g0` the
pass started from. -/
structure Inv (g0 : List BehaviorData) (st : PassState) : Prop where
  coreEq : st.g.map BehaviorData.core = g0.map BehaviorData.core
  knownNodup : st.known.Nodup
  stackNodup : st.stack.Nodup
  stackKnown : ∀ b ∈ st.stack, b ∈ st.known
  knownLt : ∀ b ∈ st.known, b < g0.length

/-- Behaviors reachable from the events' outbound links through the
link graph. -/
inductive Reachable (events : List EventData) (g0 : List BehaviorData) : Nat → Prop where
  | event (e : EventData) (he : e ∈ events) (l : BehaviorLink) (hl : l ∈ e.output_links) :
      Reachable events g0 l.behavior
  | step (i : Nat) (bd : BehaviorData) (hr : Reachable events g0 i)
      (hbd : g0[i]? = some bd) (l : BehaviorLink) (hl : l ∈ bd.output_links) :
      Reachable events g0 l.behavior

/-- Under distinct labels, a successful `get_behavior_link_commands`
leaves every one of its link targets (and everything previously known)
in the final `known_behaviors`. -/
theorem gblc_targets (g : List BehaviorData)
    (hnd : (g.map (fun b => b.behavior)).Nodup) (ef : Nat) (hef : 1 ≤ ef) :
    ∀ (links : List BehaviorLink) (K : List Nat) (cmds : List String) (kn : List Nat),
      (∀ l ∈ links, l.behavior < g.length) → (∀ k ∈ K, k < g.length) →
      get_behavior_link_commands g ef links K = .ok (cmds, kn) →
      (∀ l ∈ links, l.behavior ∈ kn) ∧ (∀ k ∈ K, k ∈ kn) := by
  intro links
  induction links with
  | nil =>
    intro K cmds kn _ _ h
    rw [gblc_nil_eq] at h
    injection h with h
    injection h with h1 h2
    subst h2
    exact ⟨by simp, fun k hk => hk⟩
  | cons l ls ih =>
    intro K cmds kn hlinks hK h
    rw [gblc_cons_eq] at h
    rw [pyMemList_labels g hnd ef l.behavior hef
      (hlinks l (List.mem_cons_self _ _)) K hK, PRes.bind_ok] at h
    by_cases ht : l.behavior ∈ K
    · rw [if_pos (by simpa using ht)] at h
      obtain ⟨cmds', h5⟩ := gblc_tail_known g ef l ls K cmds kn h
      obtain ⟨ih1, ih2⟩ := ih K cmds' kn (fun x hx => hlinks x (List.mem_cons_of_mem _ hx))
        hK h5
      refine ⟨?_, ih2⟩
      intro x hx
      rcases List.mem_cons.mp hx with rfl | hx'
      · exact ih2 _ ht
      · exact ih1 x hx'
    · rw [if_neg (by simpa using ht)] at h
      obtain ⟨cmds', h5⟩ := gblc_tail_known g ef l ls (K ++ [l.behavior]) cmds kn h
      have hK' : ∀ k ∈ K ++ [l.behavior], k < g.length := by
        intro k hk
        rcases List.mem_append.mp hk with hk' | hk'
        · exact hK k hk'
        · rw [List.mem_singleton.mp hk']
          exact hlinks l (List.mem_cons_self _ _)
      obtain ⟨ih1, ih2⟩ := ih (K ++ [l.behavior]) cmds' kn
        (fun x hx => hlinks x (List.mem_cons_of_mem _ hx)) hK' h5
      refine ⟨?_, fun k hk => ih2 k (List.mem_append_left _ hk)⟩
      intro x hx
      rcases List.mem_cons.mp hx with rfl | hx'
      · exact ih2 _ (List.mem_append_right _ (List.mem_singleton_self _))
      · exact ih1 x hx'

/-- Inversion of a successful event step into its five intermediate
results. -/
theorem eventStep_inv (σ : List Nat → List Nat) (ef : Nat) (e : EventData)
    (st st' : PassState) (h : eventStep σ ef e st = .ok st') :
    ∃ ov ol vc u bc,
      liftStruct (get_arrayindexandlength (st.vlink_cmds.length : Int)
          e.output_variables.length) = .ok ov ∧
      liftStruct (get_arrayindexandlength (st.blink_cmds.length : Int)
          e.output_links.length) = .ok ol ∧
      get_var_link_commands e.output_variables st.pool = .ok vc ∧
      newUnseen st.g ef st.known e.output_links [] = .ok u ∧
      get_behavior_link_commands st.g ef e.output_links st.known = .ok bc ∧
      st' = { g := st.g,
              event_cmds := st.event_cmds ++ [renderEventCmd e ov ol],
              blink_cmds := st.blink_cmds ++ bc.1,
              vlink_cmds := st.vlink_cmds ++ vc.1,
              pool := vc.2,
              stack := σ u ++ st.stack,
              known := bc.2 } := by
  unfold eventStep at h
  cases h1 : liftStruct (get_arrayindexandlength (st.vlink_cmds.length : Int)
      e.output_variables.length) with
  | ok ov =>
    rw [h1, PRes.bind_ok] at h
    cases h2 : liftStruct (get_arrayindexandlength (st.blink_cmds.length : Int)
        e.output_links.length) with
    | ok ol =>
      rw [h2, PRes.bind_ok] at h
      cases h3 : get_var_link_commands e.output_variables st.pool with
      | ok vc =>
        rw [h3, PRes.bind_ok] at h
        cases h4 : newUnseen st.g ef st.known e.output_links [] with
        | ok u =>
          rw [h4, PRes.bind_ok] at h
          cases h5 : get_behavior_link_commands st.g ef e.output_links st.known with
          | ok bc =>
            rw [h5, PRes.bind_ok] at h
            injection h with h
            exact ⟨ov, ol, vc, u, bc, rfl, rfl, rfl, rfl, rfl, h.symm⟩
          | err m => rw [h5, PRes.bind_err] at h; exact absurd h (by simp)
          | oof => rw [h5, PRes.bind_oof] at h; exact absurd h (by simp)
        | err m => rw [h4, PRes.bind_err] at h; exact absurd h (by simp)
        | oof => rw [h4, PRes.bind_oof] at h; exact absurd h (by simp)
      | err m => rw [h3, PRes.bind_err] at h; exact absurd h (by simp)
      | oof => rw [h3, PRes.bind_oof] at h; exact absurd h (by simp)
    | err m => rw [h2, PRes.bind_err] at h; exact absurd h (by simp)
    | oof => rw [h2, PRes.bind_oof] at h; exact absurd h (by simp)
  | err m => rw [h1, PRes.bind_err] at h; exact absurd h (by simp)
  | oof => rw [h1, PRes.bind_oof] at h; exact absurd h (by simp)

/-- The two in-place scratch writes of one drain iteration. -/
def scratchSet (g : List BehaviorData) (b : Nat) (bd : BehaviorData) (v1 v2 : Int) :
    List BehaviorData :=
  (g.set b { bd with variables_ArrayIndexAndLength := v1 }).set b
    { bd with variables_ArrayIndexAndLength := v1, output_ArrayIndexAndLength := v2 }

/-- Conditional unfolding of the drain-loop body once the popped
behavior has been looked up. -/
theorem drainStep_eq (σ : List Nat → List Nat) (ef b : Nat) (st : PassState)
    (bd : BehaviorData) (hbd : st.g[b]? = some bd) :
    drainStep σ ef b st
      = (liftStruct (get_arrayindexandlength (st.vlink_cmds.length : Int)
            bd.linked_variables.length)).bind fun v1 =>
          (get_var_link_commands bd.linked_variables st.pool).bind fun vc =>
            (liftStruct (get_arrayindexandlength (st.blink_cmds.length : Int)
                bd.output_links.length)).bind fun v2 =>
              (newUnseen (scratchSet st.g b bd v1 v2) ef st.known bd.output_links []).bind fun u =>
                (get_behavior_link_commands (scratchSet st.g b bd v1 v2) ef
                    bd.output_links st.known).bind fun bc =>
                  .ok { g := scratchSet st.g b bd v1 v2,
                        event_cmds := st.event_cmds,
                        blink_cmds := st.blink_cmds ++ bc.1,
                        vlink_cmds := st.vlink_cmds ++ vc.1,
                        pool := vc.2,
                        stack := σ u ++ st.stack,
                        known := bc.2 } := by
  unfold drainStep
  rw [hbd]
  rfl

/-- Inversion of a successful drain-loop body into its intermediate
results. -/
theorem drainStep_inv (σ : List Nat → List Nat) (ef b : Nat) (st st' : PassState)
    (h : drainStep σ ef b st = .ok st') :
    ∃ bd v1 vc v2 u bc,
      st.g[b]? = some bd ∧
      liftStruct (get_arrayindexandlength (st.vlink_cmds.length : Int)
          bd.linked_variables.length) = .ok v1 ∧
      get_var_link_commands bd.linked_variables st.pool = .ok vc ∧
      liftStruct (get_arrayindexandlength (st.blink_cmds.length : Int)
          bd.output_links.length) = .ok v2 ∧
      newUnseen (scratchSet st.g b bd v1 v2) ef st.known bd.output_links [] = .ok u ∧
      get_behavior_link_commands (scratchSet st.g b bd v1 v2) ef bd.output_links st.known
        = .ok bc ∧
      st' = { g := scratchSet st.g b bd v1 v2,
              event_cmds := st.event_cmds,
              blink_cmds := st.blink_cmds ++ bc.1,
              vlink_cmds := st.vlink_cmds ++ vc.1,
              pool := vc.2,
              stack := σ u ++ st.stack,
              known := bc.2 } := by
  cases hbd : st.g[b]? with
  | none =>
    unfold drainStep at h
    rw [hbd] at h
    exact absurd h (by simp)
  | some bd =>
    rw [drainStep_eq σ ef b st bd hbd] at h
    cases h1 : liftStruct (get_arrayindexandlength (st.vlink_cmds.length : Int)
        bd.linked_variables.length) with
    | ok v1 =>
      rw [h1, PRes.bind_ok] at h
      cases h2 : get_var_link_commands bd.linked_variables st.pool with
      | ok vc =>
        rw [h2, PRes.bind_ok] at h
        cases h3 : liftStruct (get_arrayindexandlength (st.blink_cmds.length : Int)
            bd.output_links.length) with
        | ok v2 =>
          rw [h3, PRes.bind_ok] at h
          cases h4 : newUnseen (scratchSet st.g b bd v1 v2) ef st.known bd.output_links [] with
          | ok u =>
            rw [h4, PRes.bind_ok] at h
            cases h5 : get_behavior_link_commands (scratchSet st.g b bd v1 v2) ef
                bd.output_links st.known with
            | ok bc =>
              rw [h5, PRes.bind_ok] at h
              injection h with h
              exact ⟨bd, v1, vc, v2, u, bc, rfl, h1, h2, h3, h4, h5, h.symm⟩
            | err m => rw [h5, PRes.bind_err] at h; exact absurd h (by simp)
            | oof => rw [h5, PRes.bind_oof] at h; exact absurd h (by simp)
          | err m => rw [h4, PRes.bind_err] at h; exact absurd h (by simp)
          | oof => rw [h4, PRes.bind_oof] at h; exact absurd h (by simp)
        | err m => rw [h3, PRes.bind_err] at h; exact absurd h (by simp)
        | oof => rw [h3, PRes.bind_oof] at h; exact absurd h (by simp)
      | err m => rw [h2, PRes.bind_err] at h; exact absurd h (by simp)
      | oof => rw [h2, PRes.bind_oof] at h; exact absurd h (by simp)
    | err m => rw [h1, PRes.bind_err] at h; exact absurd h (by simp)
    | oof => rw [h1, PRes.bind_oof] at h; exact absurd h (by simp)

/-- A successful event step preserves the invariant; it pushes exactly
the freshly discovered targets of the event's links, and appends the
same ones to `known_behaviors`. -/
theorem eventStep_ok (g0 : List BehaviorData) (σ : List Nat → List Nat) (ef : Nat)
    (e : EventData) (st st' : PassState)
    (hInv : Inv g0 st) (hσ : ∀ l, (σ l).Perm l)
    (hcl : ∀ l ∈ e.output_links, l.behavior < g0.length)
    (h : eventStep σ ef e st = .ok st') :
    Inv g0 st' ∧ st'.g = st.g ∧
    ∃ u, st'.known = st.known ++ u ∧ st'.stack = σ u ++ st.stack ∧ u.Nodup ∧
      (∀ x ∈ u, x ∉ st.known ∧ x < g0.length ∧ ∃ l ∈ e.output_links, l.behavior = x) := by
  obtain ⟨ov, ol, vc, u, bc, h1, h2, h3, h4, h5, hst⟩ := eventStep_inv σ ef e st st' h
  obtain ⟨w, hw1, hw2, hw3⟩ := newUnseen_spec st.g ef st.known e.output_links [] u h4
  have huw : u = w := by simpa using hw1
  subst huw
  have huNodup : u.Nodup := hw3 (List.nodup_nil)
  have hufact : ∀ x ∈ u, x ∉ st.known ∧ x < g0.length ∧
      ∃ l ∈ e.output_links, l.behavior = x := by
    intro x hx
    obtain ⟨hxA, hxK, l, hl, hlx⟩ := hw2 x hx
    exact ⟨hxK, by rw [← hlx]; exact hcl l hl, l, hl, hlx⟩
  have hknown : bc.2 = st.known ++ u := by
    apply gblc_newUnseen_agree st.g ef st.known e.output_links [] u bc.1 bc.2 h4
    rw [List.append_nil]
    rw [h5]
  have hdisj : st.known.Disjoint u := by
    intro a ha hau
    exact (hufact a hau).1 ha
  subst hst
  refine ⟨⟨?_, ?_, ?_, ?_, ?_⟩, rfl, u, ?_, rfl, huNodup, hufact⟩
  · exact hInv.coreEq
  · show bc.2.Nodup
    rw [hknown]
    exact List.nodup_append.mpr ⟨hInv.knownNodup, huNodup, hdisj⟩
  · show (σ u ++ st.stack).Nodup
    apply List.nodup_append.mpr
    refine ⟨((hσ u).nodup_iff).mpr huNodup, hInv.stackNodup, ?_⟩
    intro a ha has
    exact (hufact a (((hσ u).mem_iff).mp ha)).1 (hInv.stackKnown a has)
  · show ∀ b ∈ σ u ++ st.stack, b ∈ bc.2
    intro b hbmem
    rw [hknown]
    rcases List.mem_append.mp hbmem with hb1 | hb2
    · exact List.mem_append_right _ (((hσ u).mem_iff).mp hb1)
    · exact List.mem_append_left _ (hInv.stackKnown b hb2)
  · show ∀ b ∈ bc.2, b < g0.length
    rw [hknown]
    intro b hbmem
    rcases List.mem_append.mp hbmem with hb1 | hb2
    · exact hInv.knownLt b hb1
    · exact (hufact b hb2).2.1
  · exact hknown

/-- The two scratch writes preserve the core view of the arena. -/
theorem scratchSet_core (g : List BehaviorData) (b : Nat) (bd : BehaviorData)
    (v1 v2 : Int) (hbd : g[b]? = some bd) :
    (scratchSet g b bd v1 v2).map BehaviorData.core = g.map BehaviorData.core := by
  unfold scratchSet
  rw [List.set_set]
  exact set_same_core g b bd _ hbd rfl

/-- A successful drain-loop body preserves the invariant, touches only
slot `b` of the arena, keeps the event commands, and pushes exactly the
freshly discovered targets of the popped behavior's links (appending
the same ones to `known_behaviors`). -/
theorem drainStep_ok (g0 : List BehaviorData) (σ : List Nat → List Nat) (ef b : Nat)
    (st st' : PassState)
    (hInv : Inv g0 st) (hσ : ∀ l, (σ l).Perm l) (hclG : ClosedG g0)
    (h : drainStep σ ef b st = .ok st') :
    Inv g0 st' ∧ st'.event_cmds = st.event_cmds ∧
    (∀ i, i ≠ b → st'.g[i]? = st.g[i]?) ∧
    ∃ u, st'.known = st.known ++ u ∧ st'.stack = σ u ++ st.stack ∧ u.Nodup ∧
      (∀ x ∈ u, x ∉ st.known ∧ x < g0.length) ∧
      ∃ bd0, g0[b]? = some bd0 ∧ (∀ x ∈ u, ∃ l ∈ bd0.output_links, l.behavior = x) := by
  obtain ⟨bd, v1, vc, v2, u, bc, hbd, h1, h2, h3, h4, h5, hst⟩ := drainStep_inv σ ef b st st' h
  have hcore2 : (scratchSet st.g b bd v1 v2).map BehaviorData.core
      = st.g.map BehaviorData.core := scratchSet_core st.g b bd v1 v2 hbd
  -- the behavior at slot b in the original arena
  have hlook0 : (st.g[b]?).map BehaviorData.core = (g0[b]?).map BehaviorData.core :=
    core_lookup hInv.coreEq b
  rw [hbd] at hlook0
  obtain ⟨bd0, hbd0, hcore0⟩ : ∃ bd0, g0[b]? = some bd0 ∧ bd0.core = bd.core := by
    cases hg0 : g0[b]? with
    | none => rw [hg0] at hlook0; exact absurd hlook0 (by simp)
    | some bd0 =>
      rw [hg0] at hlook0
      exact ⟨bd0, rfl, (Option.some.inj hlook0).symm⟩
  have hlinks_eq : bd.output_links = bd0.output_links := by
    have := congrArg BehaviorCore.output_links hcore0
    simpa [BehaviorData.core] using this.symm
  have hcl : ∀ l ∈ bd.output_links, l.behavior < g0.length := by
    rw [hlinks_eq]
    exact hclG bd0 (List.getElem?_mem hbd0)
  obtain ⟨w, hw1, hw2, hw3⟩ :=
    newUnseen_spec (scratchSet st.g b bd v1 v2) ef st.known bd.output_links [] u h4
  have huw : u = w := by simpa using hw1
  subst huw
  have huNodup : u.Nodup := hw3 (List.nodup_nil)
  have hufact : ∀ x ∈ u, x ∉ st.known ∧ x < g0.length := by
    intro x hx
    obtain ⟨hxA, hxK, l, hl, hlx⟩ := hw2 x hx
    exact ⟨hxK, by rw [← hlx]; exact hcl l hl⟩
  have hutgt : ∀ x ∈ u, ∃ l ∈ bd0.output_links, l.behavior = x := by
    intro x hx
    obtain ⟨hxA, hxK, l, hl, hlx⟩ := hw2 x hx
    exact ⟨l, by rw [← hlinks_eq]; exact hl, hlx⟩
  have hknown : bc.2 = st.known ++ u := by
    apply gblc_newUnseen_agree (scratchSet st.g b bd v1 v2) ef st.known bd.output_links []
      u bc.1 bc.2 h4
    rw [List.append_nil]
    rw [h5]
  have hdisj : st.known.Disjoint u := by
    intro a ha hau
    exact (hufact a hau).1 ha
  have huntouched : ∀ i, i ≠ b → (scratchSet st.g b bd v1 v2)[i]? = st.g[i]? := by
    intro i hi
    unfold scratchSet
    rw [List.set_set]
    exact List.getElem?_set_ne (by omega)
  subst hst
  refine ⟨⟨?_, ?_, ?_, ?_, ?_⟩, rfl, huntouched, u, ?_, rfl, huNodup, hufact, bd0, hbd0, hutgt⟩
  · show (scratchSet st.g b bd v1 v2).map BehaviorData.core = g0.map BehaviorData.core
    rw [hcore2]
    exact hInv.coreEq
  · show bc.2.Nodup
    rw [hknown]
    exact List.nodup_append.mpr ⟨hInv.knownNodup, huNodup, hdisj⟩
  · show (σ u ++ st.stack).Nodup
    apply List.nodup_append.mpr
    refine ⟨((hσ u).nodup_iff).mpr huNodup, hInv.stackNodup, ?_⟩
    intro a ha has
    exact (hufact a (((hσ u).mem_iff).mp ha)).1 (hInv.stackKnown a has)
  · show ∀ x ∈ σ u ++ st.stack, x ∈ bc.2
    intro x hxmem
    rw [hknown]
    rcases List.mem_append.mp hxmem with hx1 | hx2
    · exact List.mem_append_right _ (((hσ u).mem_iff).mp hx1)
    · exact List.mem_append_left _ (hInv.stackKnown x hx2)
  · show ∀ x ∈ bc.2, x < g0.length
    rw [hknown]
    intro x hxmem
    rcases List.mem_append.mp hxmem with hx1 | hx2
    · exact hInv.knownLt x hx1
    · exact (hufact x hx2).2
  · exact hknown

/-- Draining an empty stack is an immediate return. -/
theorem drain_empty (σ : List Nat → List Nat) (ef F : Nat) (st : PassState)
    (h : st.stack = []) : drain σ ef F st = .ok st := by
  cases F with
  | zero =>
    show (match st.stack with | [] => PRes.ok st | _ :: _ => PRes.oof) = .ok st
    rw [h]
  | succ F =>
    show (match st.stack with
          | [] => PRes.ok st
          | b :: rest => (drainStep σ ef b { st with stack := rest }).bind (drain σ ef F))
        = .ok st
    rw [h]

/-- Fuel exhaustion on a nonempty stack. -/
theorem drain_zero_cons (σ : List Nat → List Nat) (ef : Nat) (st : PassState)
    (b : Nat) (rest : List Nat) (h : st.stack = b :: rest) :
    drain σ ef 0 st = .oof := by
  show (match st.stack with | [] => PRes.ok st | _ :: _ => PRes.oof) = .oof
  rw [h]

/-- One drain iteration: pop the top and run the body. -/
theorem drain_succ_cons (σ : List Nat → List Nat) (ef F : Nat) (st : PassState)
    (b : Nat) (rest : List Nat) (h : st.stack = b :: rest) :
    drain σ ef (F + 1) st
      = (drainStep σ ef b { st with stack := rest }).bind (drain σ ef F) := by
  show (match st.stack with
        | [] => PRes.ok st
        | b :: rest => (drainStep σ ef b { st with stack := rest }).bind (drain σ ef F))
      = _
  rw [h]

/-- The drain body never exhausts the model fuel. -/
theorem drainStep_no_oof (σ : List Nat → List Nat) (ef b : Nat) (st : PassState) :
    drainStep σ ef b st ≠ .oof := by
  cases hbd : st.g[b]? with
  | none =>
    unfold drainStep
    rw [hbd]
    simp
  | some bd =>
    rw [drainStep_eq σ ef b st bd hbd]
    apply bind_no_oof (liftStruct_no_oof _)
    intro v1
    apply bind_no_oof (gvlc_no_oof _ _)
    intro vc
    apply bind_no_oof (liftStruct_no_oof _)
    intro v2
    apply bind_no_oof (newUnseen_no_oof _ _ _ _ _)
    intro u
    apply bind_no_oof (gblc_no_oof _ _ _ _)
    intro bc
    simp

/-- The event step never exhausts the model fuel. -/
theorem eventStep_no_oof (σ : List Nat → List Nat) (ef : Nat) (e : EventData)
    (st : PassState) : eventStep σ ef e st ≠ .oof := by
  unfold eventStep
  apply bind_no_oof (liftStruct_no_oof _)
  intro ov
  apply bind_no_oof (liftStruct_no_oof _)
  intro ol
  apply bind_no_oof (gvlc_no_oof _ _)
  intro vc
  apply bind_no_oof (newUnseen_no_oof _ _ _ _ _)
  intro u
  apply bind_no_oof (gblc_no_oof _ _ _ _)
  intro bc
  simp

/-- Main drain lemma: with fuel at least the classic
`|stack| + 2·(unknown behaviors)` measure, the drain loop never runs
out of model fuel, and a successful drain empties the stack while
preserving the invariant, only appending to `known_behaviors`, touching
only arena slots that end up known, and leaving the event commands
alone. -/
theorem drain_main (g0 : List BehaviorData) (σ : List Nat → List Nat) (ef : Nat)
    (hσ : ∀ l, (σ l).Perm l) (hclG : ClosedG g0) :
    ∀ F st, Inv g0 st →
      st.stack.length + 2 * (g0.length - st.known.length) ≤ F →
      drain σ ef F st ≠ .oof ∧
      ∀ st', drain σ ef F st = .ok st' →
        Inv g0 st' ∧ st'.stack = [] ∧ (∃ app, st'.known = st.known ++ app) ∧
        (∀ i, i ∉ st'.known → st'.g[i]? = st.g[i]?) ∧
        st'.event_cmds = st.event_cmds := by
  intro F
  induction F with
  | zero =>
    intro st hInv hm
    have hstk : st.stack = [] := by
      have : st.stack.length = 0 := by omega
      exact List.length_eq_zero.mp this
    rw [drain_empty σ ef 0 st hstk]
    refine ⟨by simp, ?_⟩
    intro st' h'
    injection h' with h'
    subst h'
    exact ⟨hInv, hstk, ⟨[], by simp⟩, fun i _ => rfl, rfl⟩
  | succ F ih =>
    intro st hInv hm
    cases hstk : st.stack with
    | nil =>
      rw [drain_empty σ ef (F + 1) st hstk]
      refine ⟨by simp, ?_⟩
      intro st' h'
      injection h' with h'
      subst h'
      exact ⟨hInv, hstk, ⟨[], by simp⟩, fun i _ => rfl, rfl⟩
    | cons b rest =>
      have hb_known : b ∈ st.known := hInv.stackKnown b (by rw [hstk]; exact List.mem_cons_self _ _)
      have hInv1 : Inv g0 { st with stack := rest } := by
        refine ⟨hInv.coreEq, hInv.knownNodup, ?_, ?_, hInv.knownLt⟩
        · have := hInv.stackNodup
          rw [hstk] at this
          exact this.of_cons
        · intro x hx
          exact hInv.stackKnown x (by rw [hstk]; exact List.mem_cons_of_mem _ hx)
      rw [drain_succ_cons σ ef F st b rest hstk]
      cases hds : drainStep σ ef b { st with stack := rest } with
      | err m =>
        rw [PRes.bind_err]
        exact ⟨by simp, fun st' h' => absurd h' (by simp)⟩
      | oof => exact absurd hds (drainStep_no_oof σ ef b _)
      | ok st2 =>
        rw [PRes.bind_ok]
        obtain ⟨hInv2, hev2, hun2, u, hk2, hs2, huN, huF, bd0, hbd0, hutgt⟩ :=
          drainStep_ok g0 σ ef b { st with stack := rest } st2 hInv1 hσ hclG hds
        have hlen2 : st2.known.length ≤ g0.length :=
          nodup_lt_length_le st2.known g0.length hInv2.knownNodup hInv2.knownLt
        have hm2 : st2.stack.length + 2 * (g0.length - st2.known.length) ≤ F := by
          have h1 : st2.stack.length = u.length + rest.length := by
            rw [hs2]
            simp [(hσ u).length_eq]
          have h2 : st2.known.length = st.known.length + u.length := by
            rw [hk2]
            simp
          have h3 : st.stack.length = rest.length + 1 := by
            rw [hstk]
            simp
          omega
        obtain ⟨hnoof2, himpl2⟩ := ih st2 hInv2 hm2
        refine ⟨hnoof2, ?_⟩
        intro st' h'
        obtain ⟨hInv', hstk', ⟨app, happ⟩, hun', hev'⟩ := himpl2 st' h'
        refine ⟨hInv', hstk', ⟨u ++ app, by rw [happ, hk2]; simp⟩, ?_, by rw [hev', hev2]⟩
        intro i hi
        have hib : i ≠ b := by
          intro he
          subst he
          apply hi
          rw [happ, hk2]
          exact List.mem_append_left _ (List.mem_append_left _ hb_known)
        have e1 : st'.g[i]? = st2.g[i]? := hun' i hi
        have e2 : st2.g[i]? = st.g[i]? := hun2 i hib
        rw [e1, e2]

/-- Unfolding equation for the event loop, no events. -/
theorem runEvents_nil_eq (σ : List Nat → List Nat) (ef F : Nat) (st : PassState) :
    runEvents σ ef F [] st = .ok st := rfl

/-- Unfolding equation for the event loop, one event peeled off. -/
theorem runEvents_cons_eq (σ : List Nat → List Nat) (ef F : Nat) (e : EventData)
    (es : List EventData) (st : PassState) :
    runEvents σ ef F (e :: es) st
      = (eventStep σ ef e st).bind fun st1 =>
          (drain σ ef F st1).bind (runEvents σ ef F es) := rfl

/-- Main event-loop lemma: starting from an empty stack with fuel at
least `2·|arena|` per drain, the pass never runs out of model fuel,
and on success it preserves the invariant, ends with an empty stack,
only appends to `known_behaviors`, and touches only arena slots that
end up known. -/
theorem run_main (g0 : List BehaviorData) (σ : List Nat → List Nat) (ef F : Nat)
    (hσ : ∀ l, (σ l).Perm l) (hclG : ClosedG g0) (hF : 2 * g0.length ≤ F) :
    ∀ (events : List EventData) (st : PassState), Inv g0 st → st.stack = [] →
      (∀ e ∈ events, ∀ l ∈ e.output_links, l.behavior < g0.length) →
      runEvents σ ef F events st ≠ .oof ∧
      ∀ st', runEvents σ ef F events st = .ok st' →
        Inv g0 st' ∧ st'.stack = [] ∧ (∃ app, st'.known = st.known ++ app) ∧
        (∀ i, i ∉ st'.known → st'.g[i]? = st.g[i]?) := by
  intro events
  induction events with
  | nil =>
    intro st hInv hstk _
    rw [runEvents_nil_eq]
    refine ⟨by simp, ?_⟩
    intro st' h'
    injection h' with h'
    subst h'
    exact ⟨hInv, hstk, ⟨[], by simp⟩, fun i _ => rfl⟩
  | cons e es ih =>
    intro st hInv hstk hclE
    rw [runEvents_cons_eq]
    cases hes : eventStep σ ef e st with
    | err m =>
      rw [PRes.bind_err]
      exact ⟨by simp, fun st' h' => absurd h' (by simp)⟩
    | oof => exact absurd hes (eventStep_no_oof σ ef e st)
    | ok st1 =>
      rw [PRes.bind_ok]
      obtain ⟨hInv1, hg1, u, hk1, hs1, huN, huF⟩ :=
        eventStep_ok g0 σ ef e st st1 hInv hσ (hclE e (List.mem_cons_self _ _)) hes
      have hlen1 : st1.known.length ≤ g0.length :=
        nodup_lt_length_le st1.known g0.length hInv1.knownNodup hInv1.knownLt
      have hm1 : st1.stack.length + 2 * (g0.length - st1.known.length) ≤ F := by
        have h1 : st1.stack.length = u.length := by
          rw [hs1, hstk]
          simp [(hσ u).length_eq]
        have h2 : st1.known.length = st.known.length + u.length := by
          rw [hk1]
          simp
        omega
      obtain ⟨hnoofd, himpld⟩ := drain_main g0 σ ef hσ hclG F st1 hInv1 hm1
      cases hd : drain σ ef F st1 with
      | err m =>
        rw [PRes.bind_err]
        exact ⟨by simp, fun st' h' => absurd h' (by simp)⟩
      | oof => exact absurd hd hnoofd
      | ok st2 =>
        rw [PRes.bind_ok]
        obtain ⟨hInv2, hstk2, ⟨app2, happ2⟩, hun2, hev2⟩ := himpld st2 hd
        obtain ⟨hnoof3, himpl3⟩ := ih st2 hInv2 hstk2 (fun e' he' => hclE e' (List.mem_cons_of_mem _ he'))
        refine ⟨hnoof3, ?_⟩
        intro st' h'
        obtain ⟨hInv', hstk', ⟨app3, happ3⟩, hun'⟩ := himpl3 st' h'
        refine ⟨hInv', hstk', ⟨u ++ (app2 ++ app3), ?_⟩, ?_⟩
        · rw [happ3, happ2, hk1]
          simp
        · intro i hi
          have hi2 : i ∉ st2.known := by
            intro hmem
            apply hi
            rw [happ3]
            exact List.mem_append_left _ hmem
          have e1 : st'.g[i]? = st2.g[i]? := hun' i hi
          have e2 : st2.g[i]? = st1.g[i]? := hun2 i hi2
          rw [e1, e2, hg1]

/-! ## Reachability: the final behavior list is exactly the reachable set -/

/-- The reachability invariant carried through the pass: everything
known is reachable, and every known behavior that is no longer pending
on the stack has all its link targets known. -/
structure RInv (events : List EventData) (g0 : List BehaviorData) (st : PassState) : Prop where
  knownReach : ∀ i ∈ st.known, Reachable events g0 i
  drainedClosed : ∀ i ∈ st.known, i ∉ st.stack →
    ∀ bd0, g0[i]? = some bd0 → ∀ l ∈ bd0.output_links, l.behavior ∈ st.known

/-- Pairwise distinct behavior labels. -/
def labelsNodup (g0 : List BehaviorData) : Prop :=
  (g0.map (fun b => b.behavior)).Nodup

/-- The event step preserves the reachability invariant and leaves all
the event's link targets known (distinct-labels case). -/
theorem eventStep_reach (events : List EventData) (g0 : List BehaviorData)
    (σ : List Nat → List Nat) (ef : Nat) (e : EventData) (st st' : PassState)
    (hnd : labelsNodup g0) (hef : 1 ≤ ef) (hσ : ∀ l, (σ l).Perm l)
    (hInv : Inv g0 st)
    (hcl : ∀ l ∈ e.output_links, l.behavior < g0.length)
    (hreach : ∀ l ∈ e.output_links, Reachable events g0 l.behavior)
    (hR : RInv events g0 st)
    (h : eventStep σ ef e st = .ok st') :
    RInv events g0 st' ∧ (∀ l ∈ e.output_links, l.behavior ∈ st'.known) := by
  obtain ⟨ov, ol, vc, u, bc, h1, h2, h3, h4, h5, hst⟩ := eventStep_inv σ ef e st st' h
  obtain ⟨w, hw1, hw2, hw3⟩ := newUnseen_spec st.g ef st.known e.output_links [] u h4
  have huw : u = w := by simpa using hw1
  subst huw
  have hknown : bc.2 = st.known ++ u := by
    apply gblc_newUnseen_agree st.g ef st.known e.output_links [] u bc.1 bc.2 h4
    rw [List.append_nil]
    rw [h5]
  have hndg : (st.g.map (fun b => b.behavior)).Nodup := by
    rw [core_labels hInv.coreEq]
    exact hnd
  have hlen : st.g.length = g0.length := core_length hInv.coreEq
  have htgt : (∀ l ∈ e.output_links, l.behavior ∈ bc.2) ∧ ∀ k ∈ st.known, k ∈ bc.2 :=
    gblc_targets st.g hndg ef hef e.output_links st.known bc.1 bc.2
      (fun l hl => by rw [hlen]; exact hcl l hl)
      (fun k hk => by rw [hlen]; exact hInv.knownLt k hk)
      (by rw [h5])
  subst hst
  constructor
  · constructor
    · show ∀ i ∈ bc.2, Reachable events g0 i
      rw [hknown]
      intro i hi
      rcases List.mem_append.mp hi with hi1 | hi2
      · exact hR.knownReach i hi1
      · obtain ⟨hA, hK, l, hl, hlx⟩ := hw2 i hi2
        rw [← hlx]
        exact hreach l hl
    · show ∀ i ∈ bc.2, i ∉ σ u ++ st.stack → ∀ bd0, g0[i]? = some bd0 →
        ∀ l ∈ bd0.output_links, l.behavior ∈ bc.2
      rw [hknown]
      intro i hi hstk bd0 hbd0 l hl
      rcases List.mem_append.mp hi with hi1 | hi2
      · have hnotstack : i ∉ st.stack := fun hc => hstk (List.mem_append_right _ hc)
        exact List.mem_append_left _ (hR.drainedClosed i hi1 hnotstack bd0 hbd0 l hl)
      · exact absurd (List.mem_append_left st.stack (((hσ u).mem_iff).mpr hi2)) hstk
  · exact htgt.1

/-- The drain body preserves the reachability invariant
(distinct-labels case).  `b` is the behavior just popped: `st` is the
already-popped state, and the closure hypothesis is allowed to skip
`b`, whose closure this step itself establishes. -/
theorem drainStep_reach (events : List EventData) (g0 : List BehaviorData)
    (σ : List Nat → List Nat) (ef b : Nat) (st st' : PassState)
    (hnd : labelsNodup g0) (hef : 1 ≤ ef) (hσ : ∀ l, (σ l).Perm l)
    (hInv : Inv g0 st) (hclG : ClosedG g0)
    (hbk : b ∈ st.known)
    (hkR : ∀ i ∈ st.known, Reachable events g0 i)
    (hdc : ∀ i ∈ st.known, i ∉ st.stack → i ≠ b →
      ∀ bd0, g0[i]? = some bd0 → ∀ l ∈ bd0.output_links, l.behavior ∈ st.known)
    (h : drainStep σ ef b st = .ok st') :
    RInv events g0 st' := by
  obtain ⟨bd, v1, vc, v2, u, bc, hbd, h1, h2, h3, h4, h5, hst⟩ := drainStep_inv σ ef b st st' h
  have hcore2 : (scratchSet st.g b bd v1 v2).map BehaviorData.core
      = st.g.map BehaviorData.core := scratchSet_core st.g b bd v1 v2 hbd
  have hcoreg0 : (scratchSet st.g b bd v1 v2).map BehaviorData.core
      = g0.map BehaviorData.core := by rw [hcore2]; exact hInv.coreEq
  have hlook0 : (st.g[b]?).map BehaviorData.core = (g0[b]?).map BehaviorData.core :=
    core_lookup hInv.coreEq b
  rw [hbd] at hlook0
  obtain ⟨bd0, hbd0, hcore0⟩ : ∃ bd0, g0[b]? = some bd0 ∧ bd0.core = bd.core := by
    cases hg0 : g0[b]? with
    | none => rw [hg0] at hlook0; exact absurd hlook0 (by simp)
    | some bd0 =>
      rw [hg0] at hlook0
      exact ⟨bd0, rfl, (Option.some.inj hlook0).symm⟩
  have hlinks_eq : bd.output_links = bd0.output_links := by
    have := congrArg BehaviorCore.output_links hcore0
    simpa [BehaviorData.core] using this.symm
  have hcl : ∀ l ∈ bd.output_links, l.behavior < g0.length := by
    rw [hlinks_eq]
    exact hclG bd0 (List.getElem?_mem hbd0)
  obtain ⟨w, hw1, hw2, hw3⟩ :=
    newUnseen_spec (scratchSet st.g b bd v1 v2) ef st.known bd.output_links [] u h4
  have huw : u = w := by simpa using hw1
  subst huw
  have hknown : bc.2 = st.known ++ u := by
    apply gblc_newUnseen_agree (scratchSet st.g b bd v1 v2) ef st.known bd.output_links []
      u bc.1 bc.2 h4
    rw [List.append_nil]
    rw [h5]
  have hndg : ((scratchSet st.g b bd v1 v2).map (fun x => x.behavior)).Nodup := by
    rw [core_labels hcoreg0]
    exact hnd
  have hlen : (scratchSet st.g b bd v1 v2).length = g0.length := core_length hcoreg0
  have htgt : (∀ l ∈ bd.output_links, l.behavior ∈ bc.2) ∧ ∀ k ∈ st.known, k ∈ bc.2 :=
    gblc_targets (scratchSet st.g b bd v1 v2) hndg ef hef bd.output_links st.known bc.1 bc.2
      (fun l hl => by rw [hlen]; exact hcl l hl)
      (fun k hk => by rw [hlen]; exact hInv.knownLt k hk)
      (by rw [h5])
  have hbreach : Reachable events g0 b := hkR b hbk
  subst hst
  constructor
  · show ∀ i ∈ bc.2, Reachable events g0 i
    rw [hknown]
    intro i hi
    rcases List.mem_append.mp hi with hi1 | hi2
    · exact hkR i hi1
    · obtain ⟨hA, hK, l, hl, hlx⟩ := hw2 i hi2
      rw [← hlx]
      exact Reachable.step b bd0 hbreach hbd0 l (hlinks_eq ▸ hl)
  · show ∀ i ∈ bc.2, i ∉ σ u ++ st.stack → ∀ bd0' , g0[i]? = some bd0' →
      ∀ l ∈ bd0'.output_links, l.behavior ∈ bc.2
    rw [hknown]
    intro i hi hstk bd0' hbd0' l hl
    rcases List.mem_append.mp hi with hi1 | hi2
    · by_cases hib : i = b
      · subst hib
        have : bd0' = bd0 := by
          rw [hbd0] at hbd0'
          exact Option.some.inj hbd0'.symm
        subst this
        exact hknown ▸ htgt.1 l (hlinks_eq ▸ hl)
      · have hnotstack : i ∉ st.stack := fun hc => hstk (List.mem_append_right _ hc)
        exact List.mem_append_left _ (hdc i hi1 hnotstack hib bd0' hbd0' l hl)
    · exact absurd (List.mem_append_left st.stack (((hσ u).mem_iff).mpr hi2)) hstk

/-- A successful drain preserves the invariant, empties the stack and
only appends to `known_behaviors` (no fuel measure needed: success is
given). -/
theorem drain_inv_pres (g0 : List BehaviorData) (σ : List Nat → List Nat) (ef : Nat)
    (hσ : ∀ l, (σ l).Perm l) (hclG : ClosedG g0) :
    ∀ F st st', Inv g0 st → drain σ ef F st = .ok st' →
      Inv g0 st' ∧ (∃ app, st'.known = st.known ++ app) ∧ st'.stack = [] := by
  intro F
  induction F with
  | zero =>
    intro st st' hInv h
    cases hstk : st.stack with
    | nil =>
      rw [drain_empty σ ef 0 st hstk] at h
      injection h with h
      subst h
      exact ⟨hInv, ⟨[], by simp⟩, hstk⟩
    | cons b rest =>
      rw [drain_zero_cons σ ef st b rest hstk] at h
      exact absurd h (by simp)
  | succ F ih =>
    intro st st' hInv h
    cases hstk : st.stack with
    | nil =>
      rw [drain_empty σ ef (F + 1) st hstk] at h
      injection h with h
      subst h
      exact ⟨hInv, ⟨[], by simp⟩, hstk⟩
    | cons b rest =>
      rw [drain_succ_cons σ ef F st b rest hstk] at h
      have hInv1 : Inv g0 { st with stack := rest } := by
        refine ⟨hInv.coreEq, hInv.knownNodup, ?_, ?_, hInv.knownLt⟩
        · have := hInv.stackNodup
          rw [hstk] at this
          exact this.of_cons
        · intro x hx
          exact hInv.stackKnown x (by rw [hstk]; exact List.mem_cons_of_mem _ hx)
      cases hds : drainStep σ ef b { st with stack := rest } with
      | err m => rw [hds, PRes.bind_err] at h; exact absurd h (by simp)
      | oof => exact absurd hds (drainStep_no_oof σ ef b _)
      | ok st2 =>
        rw [hds, PRes.bind_ok] at h
        obtain ⟨hInv2, _, _, u, hk2, _, _, _, _⟩ :=
          drainStep_ok g0 σ ef b { st with stack := rest } st2 hInv1 hσ hclG hds
        obtain ⟨hInv', ⟨app, happ⟩, hstk'⟩ := ih st2 st' hInv2 h
        exact ⟨hInv', ⟨u ++ app, by rw [happ, hk2]; simp⟩, hstk'⟩

/-- A successful drain preserves the reachability invariant
(distinct-labels case). -/
theorem drain_reach (events : List EventData) (g0 : List BehaviorData)
    (σ : List Nat → List Nat) (ef : Nat)
    (hnd : labelsNodup g0) (hef : 1 ≤ ef) (hσ : ∀ l, (σ l).Perm l) (hclG : ClosedG g0) :
    ∀ F st st', Inv g0 st → RInv events g0 st → drain σ ef F st = .ok st' →
      RInv events g0 st' := by
  intro F
  induction F with
  | zero =>
    intro st st' hInv hR h
    cases hstk : st.stack with
    | nil =>
      rw [drain_empty σ ef 0 st hstk] at h
      injection h with h
      subst h
      exact hR
    | cons b rest =>
      rw [drain_zero_cons σ ef st b rest hstk] at h
      exact absurd h (by simp)
  | succ F ih =>
    intro st st' hInv hR h
    cases hstk : st.stack with
    | nil =>
      rw [drain_empty σ ef (F + 1) st hstk] at h
      injection h with h
      subst h
      exact hR
    | cons b rest =>
      rw [drain_succ_cons σ ef F st b rest hstk] at h
      have hInv1 : Inv g0 { st with stack := rest } := by
        refine ⟨hInv.coreEq, hInv.knownNodup, ?_, ?_, hInv.knownLt⟩
        · have := hInv.stackNodup
          rw [hstk] at this
          exact this.of_cons
        · intro x hx
          exact hInv.stackKnown x (by rw [hstk]; exact List.mem_cons_of_mem _ hx)
      cases hds : drainStep σ ef b { st with stack := rest } with
      | err m => rw [hds, PRes.bind_err] at h; exact absurd h (by simp)
      | oof => exact absurd hds (drainStep_no_oof σ ef b _)
      | ok st2 =>
        rw [hds, PRes.bind_ok] at h
        obtain ⟨hInv2, _, _, _, _, _, _, _, _⟩ :=
          drainStep_ok g0 σ ef b { st with stack := rest } st2 hInv1 hσ hclG hds
        have hR2 : RInv events g0 st2 := by
          apply drainStep_reach events g0 σ ef b { st with stack := rest } st2 hnd hef hσ
            hInv1 hclG
            (hInv.stackKnown b (by rw [hstk]; exact List.mem_cons_self _ _))
            (fun i hi => hR.knownReach i hi)
            ?_ hds
          intro i hi hirest hib bd0 hbd0 l hl
          apply hR.drainedClosed i hi ?_ bd0 hbd0 l hl
          rw [hstk]
          intro hc
          rcases List.mem_cons.mp hc with hc1 | hc2
          · exact hib hc1
          · exact hirest hc2
        exact ih st2 st' hInv2 hR2 h

/-- The event loop preserves the reachability invariant, and leaves
every processed event's link targets in the final `known_behaviors`
(distinct-labels case). -/
theorem run_reach (events : List EventData) (g0 : List BehaviorData)
    (σ : List Nat → List Nat) (ef F : Nat)
    (hnd : labelsNodup g0) (hef : 1 ≤ ef) (hσ : ∀ l, (σ l).Perm l) (hclG : ClosedG g0) :
    ∀ (pending : List EventData) (st st' : PassState), Inv g0 st → st.stack = [] →
      RInv events g0 st →
      (∀ e ∈ pending, e ∈ events) →
      (∀ e ∈ pending, ∀ l ∈ e.output_links, l.behavior < g0.length) →
      runEvents σ ef F pending st = .ok st' →
      RInv events g0 st' ∧ (∃ app, st'.known = st.known ++ app) ∧
        (∀ e ∈ pending, ∀ l ∈ e.output_links, l.behavior ∈ st'.known) := by
  intro pending
  induction pending with
  | nil =>
    intro st st' hInv hstk hR _ _ h
    rw [runEvents_nil_eq] at h
    injection h with h
    subst h
    exact ⟨hR, ⟨[], by simp⟩, by simp⟩
  | cons e es ih =>
    intro st st' hInv hstk hR hpend hclE h
    rw [runEvents_cons_eq] at h
    cases hes : eventStep σ ef e st with
    | err m => rw [hes, PRes.bind_err] at h; exact absurd h (by simp)
    | oof => exact absurd hes (eventStep_no_oof σ ef e st)
    | ok st1 =>
      rw [hes, PRes.bind_ok] at h
      obtain ⟨hInv1, hg1, u, hk1, hs1, huN, huF⟩ :=
        eventStep_ok g0 σ ef e st st1 hInv hσ (hclE e (List.mem_cons_self _ _)) hes
      obtain ⟨hR1, htgt1⟩ :=
        eventStep_reach events g0 σ ef e st st1 hnd hef hσ hInv
          (hclE e (List.mem_cons_self _ _))
          (fun l hl => Reachable.event e (hpend e (List.mem_cons_self _ _)) l hl)
          hR hes
      cases hd : drain σ ef F st1 with
      | err m => rw [hd, PRes.bind_err] at h; exact absurd h (by simp)
      | oof =>
        rw [hd, PRes.bind_oof] at h
        exact absurd h (by simp)
      | ok st2 =>
        rw [hd, PRes.bind_ok] at h
        obtain ⟨hInv2, ⟨app2, happ2⟩, hstk2⟩ := drain_inv_pres g0 σ ef hσ hclG F st1 st2 hInv1 hd
        have hR2 : RInv events g0 st2 :=
          drain_reach events g0 σ ef hnd hef hσ hclG F st1 st2 hInv1 hR1 hd
        obtain ⟨hR', ⟨app3, happ3⟩, htgt'⟩ := ih st2 st' hInv2 hstk2 hR2
          (fun e' he' => hpend e' (List.mem_cons_of_mem _ he'))
          (fun e' he' => hclE e' (List.mem_cons_of_mem _ he')) h
        refine ⟨hR', ⟨u ++ (app2 ++ app3), ?_⟩, ?_⟩
        · rw [happ3, happ2, hk1]
          simp
        · intro e' he' l hl
          rcases List.mem_cons.mp he' with rfl | he2
          · have h1 : l.behavior ∈ st1.known := htgt1 l hl
            rw [happ3, happ2]
            exact List.mem_append_left _ (List.mem_append_left _ h1)
          · exact htgt' e' he2 l hl

/-- Inversion of a successful `generate_bpd` run. -/
theorem generate_inv (events : List EventData) (vars : List BpdVariable)
    (g : List BehaviorData) (σ : List Nat → List Nat) (ef F : Nat) (args : GenArgs)
    (out : GenOut) (h : generate_bpd events vars g σ ef F args = .ok out) :
    ∃ stF, runEvents σ ef F events (initPState vars g) = .ok stF ∧
      out = { text := buildText args vars stF (stF.known.map (renderBehaviorCmd stF.g)),
              g := stF.g, known := stF.known } := by
  unfold generate_bpd at h
  cases hr : runEvents σ ef F events (initPState vars g) with
  | ok stF =>
    rw [hr, PRes.bind_ok] at h
    injection h with h
    exact ⟨stF, rfl, h.symm⟩
  | err m => rw [hr, PRes.bind_err] at h; exact absurd h (by simp)
  | oof => rw [hr, PRes.bind_oof] at h; exact absurd h (by simp)

/-- The invariant holds at the start of a pass. -/
theorem initPState_inv (vars : List BpdVariable) (g : List BehaviorData) :
    Inv g (initPState vars g) := by
  refine ⟨rfl, List.nodup_nil, List.nodup_nil, ?_, ?_⟩
  · intro b hb
    simp [initPState] at hb
  · intro b hb
    simp [initPState] at hb

/-- C1 (amended): for every finite closed link graph, with any
admissible set-iteration oracle and drain fuel at least `2·|arena|`,
the traversal of `generate_bpd` never exhausts the loop fuel — it
terminates (possibly by raising, as the counterexample shows a cyclic
graph with duplicated labels must); and when the behaviors carry
pairwise distinct labels and the pass completes without error, the
final behavior list is duplicate-free and contains exactly the
behaviors reachable from the events' outbound links. -/
theorem C1_amended_traversal (events : List EventData) (vars : List BpdVariable)
    (g : List BehaviorData) (σ : List Nat → List Nat) (ef F : Nat) (args : GenArgs)
    (hσ : ∀ l, (σ l).Perm l) (hclG : ClosedG g) (hclE : ClosedE events g)
    (hF : 2 * g.length ≤ F) :
    generate_bpd events vars g σ ef F args ≠ .oof ∧
    (labelsNodup g → 1 ≤ ef →
      ∀ out, generate_bpd events vars g σ ef F args = .ok out →
        out.known.Nodup ∧ ∀ i, i ∈ out.known ↔ Reachable events g i) := by
  have hInv0 : Inv g (initPState vars g) := initPState_inv vars g
  have hstk0 : (initPState vars g).stack = [] := rfl
  obtain ⟨hnoof, himpl⟩ :=
    run_main g σ ef F hσ hclG hF events (initPState vars g) hInv0 hstk0 hclE
  constructor
  · unfold generate_bpd
    cases hr : runEvents σ ef F events (initPState vars g) with
    | ok stF => simp
    | err m => simp
    | oof => exact absurd hr hnoof
  · intro hnd hef out hout
    obtain ⟨stF, hr, hout_eq⟩ := generate_inv events vars g σ ef F args out hout
    obtain ⟨hInv', hstk', ⟨app, happ⟩, hun'⟩ := himpl stF hr
    have hR0 : RInv events g (initPState vars g) := by
      constructor
      · intro i hi
        simp [initPState] at hi
      · intro i hi
        simp [initPState] at hi
    obtain ⟨hR', ⟨app2, happ2⟩, htgtAll⟩ :=
      run_reach events g σ ef F hnd hef hσ hclG events (initPState vars g) stF hInv0
        hstk0 hR0 (fun e he => he) hclE hr
    subst hout_eq
    refine ⟨hInv'.knownNodup, ?_⟩
    intro i
    constructor
    · intro hi
      exact hR'.knownReach i hi
    · intro hreach
      induction hreach with
      | event e he l hl => exact htgtAll e he l hl
      | step j bd hr' hbd l hl ihj =>
        apply hR'.drainedClosed j ihj ?_ bd hbd l hl
        rw [hstk']
        exact List.not_mem_nil j

/-- C10: a successful pass mutates no graph state other than the
scratch fields of the behaviors it drained: the dataclass fields
(label, `linked_variables`, `output_links`) of every behavior are
unchanged, and every arena slot outside the final behavior list is
untouched entirely (scratch included).  The event and variable
registries are read-only parameters of the embedding because the
source never assigns to them. -/
theorem C10_frame (events : List EventData) (vars : List BpdVariable)
    (g : List BehaviorData) (σ : List Nat → List Nat) (ef F : Nat) (args : GenArgs)
    (out : GenOut)
    (hσ : ∀ l, (σ l).Perm l) (hclG : ClosedG g) (hclE : ClosedE events g)
    (hF : 2 * g.length ≤ F)
    (h : generate_bpd events vars g σ ef F args = .ok out) :
    out.g.map BehaviorData.core = g.map BehaviorData.core ∧
    (∀ i, i ∉ out.known → out.g[i]? = g[i]?) := by
  have hInv0 : Inv g (initPState vars g) := initPState_inv vars g
  obtain ⟨hnoof, himpl⟩ :=
    run_main g σ ef F hσ hclG hF events (initPState vars g) hInv0 rfl hclE
  obtain ⟨stF, hr, hout_eq⟩ := generate_inv events vars g σ ef F args out h
  obtain ⟨hInv', hstk', ⟨app, happ⟩, hun'⟩ := himpl stF hr
  subst hout_eq
  exact ⟨hInv'.coreEq, hun'⟩

/-- Witness for C10 on the concrete `c2G` arena. -/
theorem C10_frame_witness :
    ∃ out, generate_bpd c2Events [] c2G id 8 8 { bpd_name := "X" } = .ok out ∧
      (out.g.map BehaviorData.core = c2G.map BehaviorData.core ∧
       (∀ i, i ∉ out.known → out.g[i]? = c2G[i]?)) := by
  refine ⟨_, rfl, ?_⟩
  apply C10_frame c2Events [] c2G id 8 8 { bpd_name := "X" } _
    (fun l => List.Perm.refl l) ?_ ?_ ?_ rfl
  · intro bd hbd l hl
    fin_cases hbd <;> fin_cases hl <;> decide
  · intro e he l hl
    fin_cases he; fin_cases hl <;> decide
  · decide

/-- Witness for C1 (amended) on the concrete cyclic-but-distinctly
labelled `c2G` arena. -/
theorem C1_amended_traversal_witness :
    (generate_bpd c2Events [] c2G id 8 8 { bpd_name := "X" } ≠ .oof) ∧
    (∀ out, generate_bpd c2Events [] c2G id 8 8 { bpd_name := "X" } = .ok out →
      out.known.Nodup ∧ ∀ i, i ∈ out.known ↔ Reachable c2Events c2G i) := by
  have h := C1_amended_traversal c2Events [] c2G id 8 8 { bpd_name := "X" }
    (fun l => List.Perm.refl l)
    (by intro bd hbd l hl; fin_cases hbd <;> fin_cases hl <;> decide)
    (by intro e he l hl; fin_cases he; fin_cases hl <;> decide)
    (by decide)
  exact ⟨h.1, h.2 (by unfold labelsNodup; decide) (by decide)⟩

/-! ## Scratch-independence (C9): congruence under core equality -/

/-- Pointwise-equal continuations give equal binds. -/
theorem PRes.bind_congr {α β : Type} (r : PRes α) (f f' : α → PRes β)
    (h : ∀ a, f a = f' a) : r.bind f = r.bind f' := by
  cases r with
  | ok a => exact h a
  | err m => rfl
  | oof => rfl

/-- Link-list comparison only depends on the comparison function. -/
theorem pyEqLinkListAux_congr (eqB eqB' : Nat → Nat → PRes Bool)
    (h : ∀ i j, eqB i j = eqB' i j) :
    ∀ l1 l2 : List BehaviorLink, pyEqLinkListAux eqB l1 l2 = pyEqLinkListAux eqB' l1 l2 := by
  intro l1
  induction l1 with
  | nil => intro l2; cases l2 <;> rfl
  | cons a as ih =>
    intro l2
    cases l2 with
    | nil => rfl
    | cons b bs =>
      show (pyEqLinkAux eqB a b).bind _ = (pyEqLinkAux eqB' a b).bind _
      have : pyEqLinkAux eqB a b = pyEqLinkAux eqB' a b := by
        unfold pyEqLinkAux
        rw [h]
      rw [this]
      cases pyEqLinkAux eqB' a b with
      | ok e =>
        cases e with
        | true => simpa using ih bs
        | false => rfl
      | err m => rfl
      | oof => rfl

/-- Python `==` on behaviors only reads the dataclass fields: two
arenas equal up to scratch compare identically. -/
theorem pyEqB_congr (g g' : List BehaviorData)
    (hc : g.map BehaviorData.core = g'.map BehaviorData.core) :
    ∀ ef i j, pyEqB g ef i j = pyEqB g' ef i j := by
  intro ef
  induction ef with
  | zero => intro i j; rfl
  | succ f ih =>
    intro i j
    by_cases hij : i = j
    · simp [pyEqB, hij]
    · simp only [pyEqB, if_neg hij]
      have hi := core_lookup hc i
      have hj := core_lookup hc j
      cases hgi : g[i]? with
      | none =>
        rw [hgi] at hi
        cases hgi' : g'[i]? with
        | none => rfl
        | some bi' => rw [hgi'] at hi; exact absurd hi (by simp)
      | some bi =>
        rw [hgi] at hi
        cases hgi' : g'[i]? with
        | none => rw [hgi'] at hi; exact absurd hi (by simp)
        | some bi' =>
          rw [hgi'] at hi
          have hbi : bi.core = bi'.core := Option.some.inj hi
          cases hgj : g[j]? with
          | none =>
            rw [hgj] at hj
            cases hgj' : g'[j]? with
            | none => rfl
            | some bj' => rw [hgj'] at hj; exact absurd hj (by simp)
          | some bj =>
            rw [hgj] at hj
            cases hgj' : g'[j]? with
            | none => rw [hgj'] at hj; exact absurd hj (by simp)
            | some bj' =>
              rw [hgj'] at hj
              have hbj : bj.core = bj'.core := Option.some.inj hj
              show (if bi.behavior = bj.behavior then
                      if bi.linked_variables = bj.linked_variables then
                        pyEqLinkListAux (pyEqB g f) bi.output_links bj.output_links
                      else PRes.ok false
                    else PRes.ok false)
                  = (if bi'.behavior = bj'.behavior then
                      if bi'.linked_variables = bj'.linked_variables then
                        pyEqLinkListAux (pyEqB g' f) bi'.output_links bj'.output_links
                      else PRes.ok false
                    else PRes.ok false)
              have e1 : bi.behavior = bi'.behavior := congrArg BehaviorCore.behavior hbi
              have e2 : bi.linked_variables = bi'.linked_variables :=
                congrArg BehaviorCore.linked_variables hbi
              have e3 : bi.output_links = bi'.output_links :=
                congrArg BehaviorCore.output_links hbi
              have f1 : bj.behavior = bj'.behavior := congrArg BehaviorCore.behavior hbj
              have f2 : bj.linked_variables = bj'.linked_variables :=
                congrArg BehaviorCore.linked_variables hbj
              have f3 : bj.output_links = bj'.output_links :=
                congrArg BehaviorCore.output_links hbj
              rw [e1, e2, e3, f1, f2, f3]
              by_cases hb : bi'.behavior = bj'.behavior
              · rw [if_pos hb, if_pos hb]
                by_cases hv : bi'.linked_variables = bj'.linked_variables
                · rw [if_pos hv, if_pos hv]
                  exact pyEqLinkListAux_congr _ _ (fun i' j' => ih i' j') _ _
                · rw [if_neg hv, if_neg hv]
              · rw [if_neg hb, if_neg hb]

/-- Membership scans agree on core-equal arenas. -/
theorem pyMemList_congr (g g' : List BehaviorData)
    (hc : g.map BehaviorData.core = g'.map BehaviorData.core) (ef i : Nat) :
    ∀ ks : List Nat, pyMemList g ef i ks = pyMemList g' ef i ks := by
  intro ks
  induction ks with
  | nil => rfl
  | cons k ks ih =>
    show (pyEqB g ef i k).bind _ = (pyEqB g' ef i k).bind _
    rw [pyEqB_congr g g' hc ef i k]
    cases pyEqB g' ef i k with
    | ok e =>
      cases e with
      | true => rfl
      | false => simpa using ih
    | err m => rfl
    | oof => rfl

/-- Index scans agree on core-equal arenas. -/
theorem pyIndexList_congr (g g' : List BehaviorData)
    (hc : g.map BehaviorData.core = g'.map BehaviorData.core) (ef i : Nat) :
    ∀ (ks : List Nat) (acc : Nat), pyIndexList g ef i ks acc = pyIndexList g' ef i ks acc := by
  intro ks
  induction ks with
  | nil => intro acc; rfl
  | cons k ks ih =>
    intro acc
    show (pyEqB g ef i k).bind _ = (pyEqB g' ef i k).bind _
    rw [pyEqB_congr g g' hc ef i k]
    cases pyEqB g' ef i k with
    | ok e =>
      cases e with
      | true => rfl
      | false => simpa using ih (acc + 1)
    | err m => rfl
    | oof => rfl

/-- The set comprehension agrees on core-equal arenas. -/
theorem newUnseen_congr (g g' : List BehaviorData)
    (hc : g.map BehaviorData.core = g'.map BehaviorData.core) (ef : Nat) (K : List Nat) :
    ∀ (links : List BehaviorLink) (A : List Nat),
      newUnseen g ef K links A = newUnseen g' ef K links A := by
  intro links
  induction links with
  | nil => intro A; rfl
  | cons l ls ih =>
    intro A
    rw [newUnseen_cons_eq, newUnseen_cons_eq]
    rw [pyMemList_congr g g' hc ef l.behavior K]
    refine PRes.bind_congr _ _ _ (fun m1 => ?_)
    cases m1 with
    | true => simp only [if_true]; exact ih A
    | false =>
      simp only [Bool.false_eq_true, if_false]
      rw [pyMemList_congr g g' hc ef l.behavior A]
      refine PRes.bind_congr _ _ _ (fun m2 => ?_)
      cases m2 with
      | true => simp only [if_true]; exact ih A
      | false => simp only [Bool.false_eq_true, if_false]; exact ih (A ++ [l.behavior])

/-- `get_behavior_link_commands` agrees on core-equal arenas. -/
theorem gblc_congr (g g' : List BehaviorData)
    (hc : g.map BehaviorData.core = g'.map BehaviorData.core) (ef : Nat) :
    ∀ (links : List BehaviorLink) (K : List Nat),
      get_behavior_link_commands g ef links K = get_behavior_link_commands g' ef links K := by
  intro links
  induction links with
  | nil => intro K; rfl
  | cons l ls ih =>
    intro K
    rw [gblc_cons_eq, gblc_cons_eq]
    rw [pyMemList_congr g g' hc ef l.behavior K]
    refine PRes.bind_congr _ _ _ (fun m => ?_)
    rw [pyIndexList_congr g g' hc ef l.behavior (if m then K else K ++ [l.behavior]) 0]
    refine PRes.bind_congr _ _ _ (fun idx => ?_)
    refine PRes.bind_congr _ _ _ (fun packed => ?_)
    rw [ih (if m then K else K ++ [l.behavior])]

/-! ## Lookups through `scratchSet` and scratch overwrites -/

/-- A scratch write leaves every other slot untouched. -/
theorem scratchSet_lookup_ne (g : List BehaviorData) (b : Nat) (bd : BehaviorData)
    (v1 v2 : Int) (i : Nat) (h : i ≠ b) :
    (scratchSet g b bd v1 v2)[i]? = g[i]? := by
  unfold scratchSet
  rw [List.set_set]
  exact List.getElem?_set_ne (by omega)

/-- A scratch write stores the fully overwritten record at its slot. -/
theorem scratchSet_lookup_self (g : List BehaviorData) (b : Nat) (bd : BehaviorData)
    (v1 v2 : Int) (hb : b < g.length) :
    (scratchSet g b bd v1 v2)[b]?
      = some { bd with variables_ArrayIndexAndLength := v1,
                       output_ArrayIndexAndLength := v2 } := by
  unfold scratchSet
  rw [List.set_set]
  exact List.getElem?_set_self (by simpa using hb)

/-- Overwriting both scratch fields erases any scratch difference:
core-equal behaviors become fully equal. -/
theorem scratch_overwrite (x y : BehaviorData) (v1 v2 : Int) (h : x.core = y.core) :
    ({ x with variables_ArrayIndexAndLength := v1,
              output_ArrayIndexAndLength := v2 } : BehaviorData)
      = { y with variables_ArrayIndexAndLength := v1,
                 output_ArrayIndexAndLength := v2 } := by
  cases x
  cases y
  simp only [BehaviorData.core, BehaviorCore.mk.injEq] at h
  obtain ⟨h1, h2, h3⟩ := h
  subst h1
  subst h2
  subst h3
  rfl

/-! ## The parallel-run relation -/

/-- Relates the outcomes of two parallel runs: both fail identically or
both succeed with related results. -/
def PRel {α : Type} (R : α → α → Prop) : PRes α → PRes α → Prop
  | .ok a, .ok b => R a b
  | .err m, .err m' => m = m'
  | .oof, .oof => True
  | _, _ => False

/-- Binding related computations against pointwise-related
continuations. -/
theorem PRel_bind {α β : Type} (R : β → β → Prop) (r : PRes α)
    (f f' : α → PRes β) (h : ∀ a, PRel R (f a) (f' a)) :
    PRel R (r.bind f) (r.bind f') := by
  cases r with
  | ok a => exact h a
  | err m => exact rfl
  | oof => exact trivial

/-- Binding two related computations against continuations that map
related inputs to related outcomes. -/
theorem PRel_bind_rel {α β : Type} (R : α → α → Prop) (S : β → β → Prop)
    (r r' : PRes α) (h : PRel R r r') (f f' : α → PRes β)
    (hf : ∀ a a', R a a' → PRel S (f a) (f' a')) :
    PRel S (r.bind f) (r'.bind f') := by
  cases r with
  | ok a =>
    cases r' with
    | ok a' => exact hf a a' h
    | err m => exact False.elim h
    | oof => exact False.elim h
  | err m =>
    cases r' with
    | ok a' => exact False.elim h
    | err m' =>
      have hm : m = m' := h
      subst hm
      exact rfl
    | oof => exact False.elim h
  | oof =>
    cases r' with
    | ok a' => exact False.elim h
    | err m => exact False.elim h
    | oof => exact trivial

/-- The bisimulation between a pass over an arena and a pass over a
scratch-mutated copy of it: all pass-local state agrees, the arenas
agree on every core, and they agree fully (scratch included) on every
slot already drained (known and no longer pending on the stack). -/
structure Bisim (st st' : PassState) : Prop where
  coreEq : st.g.map BehaviorData.core = st'.g.map BehaviorData.core
  ev : st.event_cmds = st'.event_cmds
  bl : st.blink_cmds = st'.blink_cmds
  vl : st.vlink_cmds = st'.vlink_cmds
  pool : st.pool = st'.pool
  stack : st.stack = st'.stack
  known : st.known = st'.known
  drained : ∀ i ∈ st.known, i ∉ st.stack → st.g[i]? = st'.g[i]?

/-- The event step preserves the bisimulation: both runs take the same
branch and emit the same commands. -/
theorem eventStep_bisim (σ : List Nat → List Nat) (hσ : ∀ l, (σ l).Perm l)
    (ef : Nat) (e : EventData) (st st' : PassState) (hB : Bisim st st') :
    PRel Bisim (eventStep σ ef e st) (eventStep σ ef e st') := by
  obtain ⟨hcore, hev, hbl, hvl, hpool, hstk, hknown, hdr⟩ := hB
  unfold eventStep
  rw [← hev, ← hbl, ← hvl, ← hpool, ← hstk, ← hknown]
  rw [← newUnseen_congr st.g st'.g hcore ef st.known e.output_links [],
      ← gblc_congr st.g st'.g hcore ef e.output_links st.known]
  refine PRel_bind _ _ _ _ (fun ov => ?_)
  refine PRel_bind _ _ _ _ (fun ol => ?_)
  refine PRel_bind _ _ _ _ (fun vc => ?_)
  cases hu : newUnseen st.g ef st.known e.output_links [] with
  | err m => exact rfl
  | oof => exact trivial
  | ok u =>
    simp only [PRes.bind_ok]
    cases hbc : get_behavior_link_commands st.g ef e.output_links st.known with
    | err m => exact rfl
    | oof => exact trivial
    | ok bc =>
      simp only [PRes.bind_ok]
      refine show Bisim _ _ from ⟨hcore, rfl, rfl, rfl, rfl, rfl, rfl, ?_⟩
      have hagree : bc.2 = st.known ++ u :=
        gblc_newUnseen_agree st.g ef st.known e.output_links [] u bc.1 bc.2 hu
          (by rw [List.append_nil]; exact hbc)
      intro i hi hst2
      have hi2 : i ∈ st.known ++ u := by rw [← hagree]; exact hi
      have hst3 : i ∉ σ u ++ st.stack := hst2
      show st.g[i]? = st'.g[i]?
      rcases List.mem_append.mp hi2 with hik | hiu
      · exact hdr i hik (fun hc => hst3 (List.mem_append_right _ hc))
      · exact absurd (List.mem_append_left _ ((hσ u).mem_iff.mpr hiu)) hst3

/-- The drain-loop body preserves the bisimulation.  The popped slot
itself is exempt from the drained-slot agreement: both runs overwrite
its scratch fields with the same freshly computed values before anyone
reads them. -/
theorem drainStep_bisim (σ : List Nat → List Nat) (hσ : ∀ l, (σ l).Perm l)
    (ef b : Nat) (st st' : PassState)
    (hcore : st.g.map BehaviorData.core = st'.g.map BehaviorData.core)
    (hev : st.event_cmds = st'.event_cmds) (hbl : st.blink_cmds = st'.blink_cmds)
    (hvl : st.vlink_cmds = st'.vlink_cmds) (hpool : st.pool = st'.pool)
    (hstk : st.stack = st'.stack) (hknown : st.known = st'.known)
    (hdr : ∀ i ∈ st.known, i ∉ st.stack → i ≠ b → st.g[i]? = st'.g[i]?) :
    PRel Bisim (drainStep σ ef b st) (drainStep σ ef b st') := by
  have hlk := core_lookup hcore b
  cases hbd : st.g[b]? with
  | none =>
    rw [hbd] at hlk
    cases hbd' : st'.g[b]? with
    | none =>
      unfold drainStep
      rw [hbd, hbd']
      exact rfl
    | some bd' => rw [hbd'] at hlk; exact absurd hlk (by simp)
  | some bd =>
    rw [hbd] at hlk
    cases hbd' : st'.g[b]? with
    | none => rw [hbd'] at hlk; exact absurd hlk (by simp)
    | some bd' =>
      rw [hbd'] at hlk
      have hbcore : bd.core = bd'.core := Option.some.inj hlk
      have e2 : bd.linked_variables = bd'.linked_variables :=
        congrArg BehaviorCore.linked_variables hbcore
      have e3 : bd.output_links = bd'.output_links :=
        congrArg BehaviorCore.output_links hbcore
      have hb : b < st.g.length := by
        by_contra hcon
        rw [List.getElem?_eq_none (Nat.le_of_not_lt hcon)] at hbd
        exact absurd hbd (by simp)
      have hb' : b < st'.g.length := by
        by_contra hcon
        rw [List.getElem?_eq_none (Nat.le_of_not_lt hcon)] at hbd'
        exact absurd hbd' (by simp)
      rw [drainStep_eq σ ef b st bd hbd, drainStep_eq σ ef b st' bd' hbd']
      rw [← e2, ← e3, ← hev, ← hbl, ← hvl, ← hpool, ← hstk, ← hknown]
      refine PRel_bind _ _ _ _ (fun v1 => ?_)
      refine PRel_bind _ _ _ _ (fun vc => ?_)
      refine PRel_bind _ _ _ _ (fun v2 => ?_)
      have hc2 : (scratchSet st.g b bd v1 v2).map BehaviorData.core
          = (scratchSet st'.g b bd' v1 v2).map BehaviorData.core := by
        rw [scratchSet_core st.g b bd v1 v2 hbd, scratchSet_core st'.g b bd' v1 v2 hbd',
          hcore]
      rw [← newUnseen_congr _ _ hc2 ef st.known bd.output_links [],
          ← gblc_congr _ _ hc2 ef bd.output_links st.known]
      cases hu : newUnseen (scratchSet st.g b bd v1 v2) ef st.known bd.output_links [] with
      | err m => exact rfl
      | oof => exact trivial
      | ok u =>
        simp only [PRes.bind_ok]
        cases hgb : get_behavior_link_commands (scratchSet st.g b bd v1 v2) ef
            bd.output_links st.known with
        | err m => exact rfl
        | oof => exact trivial
        | ok bc =>
          simp only [PRes.bind_ok]
          refine show Bisim _ _ from ⟨hc2, rfl, rfl, rfl, rfl, rfl, rfl, ?_⟩
          have hagree : bc.2 = st.known ++ u :=
            gblc_newUnseen_agree _ ef st.known bd.output_links [] u bc.1 bc.2 hu
              (by rw [List.append_nil]; exact hgb)
          intro i hi hst2
          have hi2 : i ∈ st.known ++ u := by rw [← hagree]; exact hi
          have hst3 : i ∉ σ u ++ st.stack := hst2
          show (scratchSet st.g b bd v1 v2)[i]? = (scratchSet st'.g b bd' v1 v2)[i]?
          by_cases hib : i = b
          · subst hib
            rw [scratchSet_lookup_self st.g i bd v1 v2 hb,
              scratchSet_lookup_self st'.g i bd' v1 v2 hb']
            rw [scratch_overwrite bd bd' v1 v2 hbcore]
          · rw [scratchSet_lookup_ne st.g b bd v1 v2 i hib,
              scratchSet_lookup_ne st'.g b bd' v1 v2 i hib]
            rcases List.mem_append.mp hi2 with hik | hiu
            · exact hdr i hik (fun hc => hst3 (List.mem_append_right _ hc)) hib
            · exact absurd (List.mem_append_left _ ((hσ u).mem_iff.mpr hiu)) hst3

/-- The drain loop preserves the bisimulation at every fuel level. -/
theorem drain_bisim (σ : List Nat → List Nat) (hσ : ∀ l, (σ l).Perm l) (ef : Nat) :
    ∀ (F : Nat) (st st' : PassState), Bisim st st' →
      PRel Bisim (drain σ ef F st) (drain σ ef F st') := by
  intro F
  induction F with
  | zero =>
    intro st st' hB
    cases hs : st.stack with
    | nil =>
      have hs' : st'.stack = [] := by rw [← hB.stack, hs]
      rw [drain_empty σ ef 0 st hs, drain_empty σ ef 0 st' hs']
      exact hB
    | cons b rest =>
      have hs' : st'.stack = b :: rest := by rw [← hB.stack, hs]
      rw [drain_zero_cons σ ef st b rest hs, drain_zero_cons σ ef st' b rest hs']
      exact trivial
  | succ F ih =>
    intro st st' hB
    cases hs : st.stack with
    | nil =>
      have hs' : st'.stack = [] := by rw [← hB.stack, hs]
      rw [drain_empty σ ef (F + 1) st hs, drain_empty σ ef (F + 1) st' hs']
      exact hB
    | cons b rest =>
      have hs' : st'.stack = b :: rest := by rw [← hB.stack, hs]
      rw [drain_succ_cons σ ef F st b rest hs, drain_succ_cons σ ef F st' b rest hs']
      refine PRel_bind_rel Bisim Bisim _ _ ?_ _ _ (fun a a' hB1 => ih a a' hB1)
      refine drainStep_bisim σ hσ ef b { st with stack := rest } { st' with stack := rest }
        hB.coreEq hB.ev hB.bl hB.vl hB.pool rfl hB.known ?_
      intro i hik hirest hib
      apply hB.drained i hik
      rw [hs]
      intro hc
      rcases List.mem_cons.mp hc with hc1 | hc2
      · exact hib hc1
      · exact hirest hc2

/-- The whole event loop preserves the bisimulation. -/
theorem runEvents_bisim (σ : List Nat → List Nat) (hσ : ∀ l, (σ l).Perm l)
    (ef F : Nat) :
    ∀ (events : List EventData) (st st' : PassState), Bisim st st' →
      PRel Bisim (runEvents σ ef F events st) (runEvents σ ef F events st') := by
  intro events
  induction events with
  | nil =>
    intro st st' hB
    rw [runEvents_nil_eq, runEvents_nil_eq]
    exact hB
  | cons e es ih =>
    intro st st' hB
    rw [runEvents_cons_eq, runEvents_cons_eq]
    refine PRel_bind_rel Bisim Bisim _ _ (eventStep_bisim σ hσ ef e st st' hB) _ _ ?_
    intro st1 st1' hB1
    exact PRel_bind_rel Bisim Bisim _ _ (drain_bisim σ hσ ef F st1 st1' hB1) _ _
      (fun a a' h => ih a a' h)

/-- The rendered text only reads the four command accumulators of the
final state. -/
theorem buildText_congr (args : GenArgs) (vars : List BpdVariable)
    (st st' : PassState) (cmds : List String)
    (h1 : st.event_cmds = st'.event_cmds) (h2 : st.blink_cmds = st'.blink_cmds)
    (h3 : st.vlink_cmds = st'.vlink_cmds) (h4 : st.pool = st'.pool) :
    buildText args vars st cmds = buildText args vars st' cmds := by
  unfold buildText
  rw [h1, h2, h3, h4]

/-- C9: rerunning `generate_bpd` on the unmodified graph is
byte-idempotent.  A first successful pass leaves behind only the
scratch offset/length fields it wrote into the behavior arena; a
second pass over that mutated arena (same events, variables, oracle,
recursion limit, fuel and arguments) succeeds and emits byte-identical
output text (and the same behavior list), because `known_behaviors`,
the work stack, `linked_variable_pool` and every scratch field it
reads are recomputed fresh inside the pass. -/
theorem C9_idempotent_output (events : List EventData) (vars : List BpdVariable)
    (g : List BehaviorData) (σ : List Nat → List Nat) (ef F : Nat) (args : GenArgs)
    (out1 : GenOut)
    (hσ : ∀ l, (σ l).Perm l) (hclG : ClosedG g) (hclE : ClosedE events g)
    (hF : 2 * g.length ≤ F)
    (h1 : generate_bpd events vars g σ ef F args = .ok out1) :
    ∃ out2, generate_bpd events vars out1.g σ ef F args = .ok out2 ∧
      out2.text = out1.text ∧ out2.known = out1.known := by
  obtain ⟨stF, hr, hout⟩ := generate_inv events vars g σ ef F args out1 h1
  obtain ⟨hnoof, himpl⟩ :=
    run_main g σ ef F hσ hclG hF events (initPState vars g) (initPState_inv vars g) rfl hclE
  obtain ⟨hInv', hstk', _, _⟩ := himpl stF hr
  have hg1 : out1.g = stF.g := by rw [hout]
  have htext1 : out1.text
      = buildText args vars stF (stF.known.map (renderBehaviorCmd stF.g)) := by rw [hout]
  have hknown1 : out1.known = stF.known := by rw [hout]
  rw [hg1, htext1, hknown1]
  have hB0 : Bisim (initPState vars g) (initPState vars stF.g) := by
    refine ⟨hInv'.coreEq.symm, rfl, rfl, rfl, rfl, rfl, rfl, ?_⟩
    intro i hi
    simp [initPState] at hi
  have hrel := runEvents_bisim σ hσ ef F events (initPState vars g)
    (initPState vars stF.g) hB0
  rw [hr] at hrel
  cases hr2 : runEvents σ ef F events (initPState vars stF.g) with
  | err m => rw [hr2] at hrel; exact False.elim hrel
  | oof => rw [hr2] at hrel; exact False.elim hrel
  | ok stF2 =>
    rw [hr2] at hrel
    refine ⟨{ text := buildText args vars stF2 (stF2.known.map (renderBehaviorCmd stF2.g)),
              g := stF2.g, known := stF2.known }, ?_, ?_, ?_⟩
    · unfold generate_bpd
      rw [hr2, PRes.bind_ok]
    · show buildText args vars stF2 (stF2.known.map (renderBehaviorCmd stF2.g))
        = buildText args vars stF (stF.known.map (renderBehaviorCmd stF.g))
      have hcmds : stF2.known.map (renderBehaviorCmd stF2.g)
          = stF.known.map (renderBehaviorCmd stF.g) := by
        rw [← hrel.known]
        apply List.map_congr_left
        intro i hi
        have hgeq : stF.g[i]? = stF2.g[i]? :=
          hrel.drained i hi (by rw [hstk']; exact List.not_mem_nil i)
        unfold renderBehaviorCmd
        rw [hgeq]
      rw [hcmds]
      exact buildText_congr args vars stF2 stF _ hrel.ev.symm hrel.bl.symm hrel.vl.symm
        hrel.pool.symm
    · exact hrel.known.symm

/-- Witness for C9: the first pass over the concrete `c2G` arena
succeeds, and the theorem yields a byte-identical second pass over the
arena the first pass mutated. -/
theorem C9_idempotent_output_witness :
    ∃ out1, generate_bpd c2Events [] c2G id 8 8 { bpd_name := "X" } = .ok out1 ∧
      ∃ out2, generate_bpd c2Events [] out1.g id 8 8 { bpd_name := "X" } = .ok out2 ∧
        out2.text = out1.text ∧ out2.known = out1.known := by
  refine ⟨_, rfl, ?_⟩
  apply C9_idempotent_output c2Events [] c2G id 8 8 { bpd_name := "X" } _
    (fun l => List.Perm.refl l) ?_ ?_ ?_ rfl
  · intro bd hbd l hl
    fin_cases hbd <;> fin_cases hl <;> decide
  · intro e he l hl
    fin_cases he; fin_cases hl <;> decide
  · decide

end BpdHelper
